import Mathlib

/-!
Verification of the `otrie` path-trie store: a shallow embedding of the
tree mutator and path utilities of `src/Utils.ts`, and of the store /
notification pipeline of `src/TrieStore.ts`, together with proofs of the
specification claims.

Conventions of the embedding:
* JS `undefined` is `Option.none`; a fallible JS function (one that can
  throw) returns `Except StoreErr`.
* JS reference equality `===` is modelled by structural equality of the
  value model (`jsEqB`); it is exact for scalars and conservative for
  objects (structurally distinct objects are never `===`).
* JS string comparison (`localeCompare`) is modelled by code-point
  lexicographic comparison of the character lists.
-/

namespace Otrie

/-! ### String comparison (model of `String.prototype.localeCompare`) -/

/-- Compare two characters by code point. -/
def chCmp (c d : Char) : Ordering :=
  if c < d then .lt else if d < c then .gt else .eq

/-- Lexicographic comparison of character lists; models `a.localeCompare(b)`
(negative / zero / positive result) for plain strings. -/
def strCmpL : List Char → List Char → Ordering
  | [], [] => .eq
  | [], _ :: _ => .lt
  | _ :: _, [] => .gt
  | c :: cs, d :: ds => match chCmp c d with
      | .eq => strCmpL cs ds
      | o => o

/-- Comparison of strings, used wherever the source calls `localeCompare`. -/
def strCmp (a b : String) : Ordering := strCmpL a.toList b.toList

theorem chCmp_eq_iff (c d : Char) : chCmp c d = .eq ↔ c = d := by
  unfold chCmp
  rcases lt_trichotomy c d with h | h | h
  · simp [h, h.ne]
  · simp [h]
  · simp [h.ne', not_lt_of_gt h, h]

theorem chCmp_swap (c d : Char) : (chCmp c d).swap = chCmp d c := by
  unfold chCmp
  rcases lt_trichotomy c d with h | h | h
  · simp [h, not_lt_of_gt h, Ordering.swap]
  · simp [h, lt_irrefl, Ordering.swap]
  · simp [h, not_lt_of_gt h, Ordering.swap]

theorem chCmp_lt_iff {a b : Char} : chCmp a b = .lt ↔ a < b := by
  unfold chCmp
  rcases lt_trichotomy a b with h | h | h
  · simp [h]
  · simp [h, lt_irrefl]
  · simp [h, h.ne', not_lt_of_gt h]

theorem chCmp_lt_trans {a b c : Char} (h1 : chCmp a b = .lt) (h2 : chCmp b c = .lt) :
    chCmp a c = .lt :=
  chCmp_lt_iff.mpr (lt_trans (chCmp_lt_iff.mp h1) (chCmp_lt_iff.mp h2))

theorem strCmpL_eq_iff : ∀ as bs, strCmpL as bs = .eq ↔ as = bs
  | [], [] => by simp [strCmpL]
  | [], _ :: _ => by simp [strCmpL]
  | _ :: _, [] => by simp [strCmpL]
  | c :: cs, d :: ds => by
      simp only [strCmpL]
      rcases h : chCmp c d with _ | _ | _
      · have hne : c ≠ d := fun he => by
          rw [he, (chCmp_eq_iff d d).mpr rfl] at h; cases h
        simp [hne]
      · have hcd := (chCmp_eq_iff c d).mp h
        subst hcd
        simp [strCmpL_eq_iff cs ds]
      · have hne : c ≠ d := fun he => by
          rw [he, (chCmp_eq_iff d d).mpr rfl] at h; cases h
        simp [hne]

theorem strCmpL_swap : ∀ as bs, (strCmpL as bs).swap = strCmpL bs as
  | [], [] => rfl
  | [], _ :: _ => rfl
  | _ :: _, [] => rfl
  | c :: cs, d :: ds => by
      simp only [strCmpL]
      rw [← chCmp_swap c d]
      rcases h : chCmp c d with _ | _ | _
      · rfl
      · exact strCmpL_swap cs ds
      · rfl

theorem strCmpL_lt_trans : ∀ {as bs cs : List Char},
    strCmpL as bs = .lt → strCmpL bs cs = .lt → strCmpL as cs = .lt
  | [], [], _ :: _, _, _ => rfl
  | [], _ :: _, _ :: _, _, _ => rfl
  | [], [], [], h, _ => by cases h
  | [], _ :: _, [], _, h => by cases h
  | _ :: _, [], _, h, _ => by cases h
  | _ :: _, _ :: _, [], _, h => by cases h
  | a :: as, b :: bs, c :: cs, h1, h2 => by
      simp only [strCmpL] at *
      rcases hab : chCmp a b with x | x | x <;> rw [hab] at h1 <;> try cases h1
      all_goals rcases hbc : chCmp b c with y | y | y <;> rw [hbc] at h2 <;> try cases h2
      · rw [chCmp_lt_trans hab hbc]
      · have := (chCmp_eq_iff b c).mp hbc; subst this; rw [hab]
      · have := (chCmp_eq_iff a b).mp hab; subst this; rw [hbc]
      · have := (chCmp_eq_iff a b).mp hab; subst this
        rw [hbc]
        exact strCmpL_lt_trans h1 h2

/-! ### JS `Number(string)` and `isValidArrayIndex` -/

/-- Numeric value of a digit list (most significant first); non-digit
characters contribute via their code point and never occur on the parsed
path. -/
def digitsToNat (cs : List Char) : Nat :=
  cs.foldl (fun n c => n * 10 + (c.toNat - 48)) 0

/-- Parse an unsigned decimal literal (`digits`, `digits.digits`, `.digits`,
`digits.`) into `(numerator, scale)` with value `numerator / 10 ^ scale`.
Returns `none` when the characters are not such a literal. -/
def parseDecimal (cs : List Char) : Option (Nat × Nat) :=
  let intPart := cs.takeWhile Char.isDigit
  let rest := cs.dropWhile Char.isDigit
  match rest with
  | [] => if intPart.isEmpty then none else some (digitsToNat intPart, 0)
  | '.' :: frac =>
      if frac.all Char.isDigit ∧ ¬(intPart.isEmpty ∧ frac.isEmpty) then
        some (digitsToNat intPart * 10 ^ frac.length + digitsToNat frac, frac.length)
      else none
  | _ => none

/-- Result of JS `Number(key)` as used by `isValidArrayIndex`: either NaN or
a finite decimal `num / 10 ^ scale`.  Modelled for plain decimal literals
with an optional sign; the source only consults `isNaN`, `>= 0` and
`!== Infinity`, and `Infinity`-producing inputs (`'Infinity'`, overflowing
exponents) are mapped to `nan`, which yields the same validity verdict. -/
inductive JsNum where
  | nan
  | val (num : Int) (scale : Nat)
deriving DecidableEq

/-- Model of `Number(key)` for the key strings reaching `isValidArrayIndex`.
`Number('') = 0`; a leading `+`/`-` sign is honoured; anything that is not a
plain decimal literal is NaN. -/
def jsNumber (s : String) : JsNum :=
  match s.toList with
  | [] => .val 0 0
  | '-' :: rest =>
      match parseDecimal rest with
      | some (n, k) => .val (-(n : Int)) k
      | none => .nan
  | '+' :: rest =>
      match parseDecimal rest with
      | some (n, k) => .val (n : Int) k
      | none => .nan
  | cs =>
      match parseDecimal cs with
      | some (n, k) => .val (n : Int) k
      | none => .nan

/-- Embedding of `isValidArrayIndex` (local function in `setInPath`,
`src/Utils.ts`): `const index = Number(key); return !isNaN(index) &&
index >= 0 && index !== Infinity;`.  Note the source performs no
integrality check. -/
def isValidArrayIndex (key : String) : Bool :=
  match jsNumber key with
  | .nan => false
  | .val n _ => 0 ≤ n

example : isValidArrayIndex "0" = true := by decide
example : isValidArrayIndex "1" = true := by decide
example : isValidArrayIndex "1.5" = true := by decide
example : isValidArrayIndex "-1" = false := by decide
example : isValidArrayIndex "-0" = true := by decide
example : isValidArrayIndex "" = true := by decide
example : isValidArrayIndex "b" = false := by decide
example : isValidArrayIndex "abc" = false := by decide

/-! ### The JS value model (`StateValue` of `src/Utils.ts`) -/

/-- A JS value as stored in the state tree (`StateValue` in `src/Utils.ts`).
`undefined` is represented as `Option.none` at use sites, never as a value.
Scalars are opaque to tree traversal; JS numbers are modelled as integers
(the store never computes with them).  Arrays carry their ordered element
slots (`none` = hole: a slot that reads `undefined`) plus the non-index
string properties a JS array object can hold. -/
inductive StateValue where
  | vstr (s : String)
  | vnum (n : Int)
  | vbool (b : Bool)
  | vnull
  | vbigint (n : Int)
  | vfunc (id : Nat)
  | vrecord (entries : List (String × StateValue))
  | varr (elems : List (Option StateValue)) (props : List (String × StateValue))

namespace StateValue

mutual

/-- Structural equality of values; the model of JS `===`. -/
def jsEqB : StateValue → StateValue → Bool
  | .vstr a, .vstr b => a == b
  | .vnum a, .vnum b => a == b
  | .vbool a, .vbool b => a == b
  | .vnull, .vnull => true
  | .vbigint a, .vbigint b => a == b
  | .vfunc a, .vfunc b => a == b
  | .vrecord es, .vrecord fs => entriesEqB es fs
  | .varr as aps, .varr bs bps => oelemsEqB as bs && entriesEqB aps bps
  | _, _ => false

/-- Pointwise equality of entry lists. -/
def entriesEqB : List (String × StateValue) → List (String × StateValue) → Bool
  | [], [] => true
  | (k, v) :: es, (k2, v2) :: fs => k == k2 && jsEqB v v2 && entriesEqB es fs
  | _, _ => false

/-- Pointwise equality of array slot lists. -/
def oelemsEqB : List (Option StateValue) → List (Option StateValue) → Bool
  | [], [] => true
  | none :: as, none :: bs => oelemsEqB as bs
  | some a :: as, some b :: bs => jsEqB a b && oelemsEqB as bs
  | _, _ => false

end

mutual

theorem jsEqB_iff : ∀ a b, jsEqB a b = true ↔ a = b
  | .vstr a, .vstr b => by simp [jsEqB]
  | .vnum a, .vnum b => by simp [jsEqB]
  | .vbool a, .vbool b => by simp [jsEqB]
  | .vnull, .vnull => by simp [jsEqB]
  | .vbigint a, .vbigint b => by simp [jsEqB]
  | .vfunc a, .vfunc b => by simp [jsEqB]
  | .vrecord es, .vrecord fs => by simp [jsEqB, entriesEqB_iff es fs]
  | .varr as aps, .varr bs bps => by
      simp [jsEqB, oelemsEqB_iff as bs, entriesEqB_iff aps bps]
  | .vstr _, .vnum _ => by simp [jsEqB]
  | .vstr _, .vbool _ => by simp [jsEqB]
  | .vstr _, .vnull => by simp [jsEqB]
  | .vstr _, .vbigint _ => by simp [jsEqB]
  | .vstr _, .vfunc _ => by simp [jsEqB]
  | .vstr _, .vrecord _ => by simp [jsEqB]
  | .vstr _, .varr _ _ => by simp [jsEqB]
  | .vnum _, .vstr _ => by simp [jsEqB]
  | .vnum _, .vbool _ => by simp [jsEqB]
  | .vnum _, .vnull => by simp [jsEqB]
  | .vnum _, .vbigint _ => by simp [jsEqB]
  | .vnum _, .vfunc _ => by simp [jsEqB]
  | .vnum _, .vrecord _ => by simp [jsEqB]
  | .vnum _, .varr _ _ => by simp [jsEqB]
  | .vbool _, .vstr _ => by simp [jsEqB]
  | .vbool _, .vnum _ => by simp [jsEqB]
  | .vbool _, .vnull => by simp [jsEqB]
  | .vbool _, .vbigint _ => by simp [jsEqB]
  | .vbool _, .vfunc _ => by simp [jsEqB]
  | .vbool _, .vrecord _ => by simp [jsEqB]
  | .vbool _, .varr _ _ => by simp [jsEqB]
  | .vnull, .vstr _ => by simp [jsEqB]
  | .vnull, .vnum _ => by simp [jsEqB]
  | .vnull, .vbool _ => by simp [jsEqB]
  | .vnull, .vbigint _ => by simp [jsEqB]
  | .vnull, .vfunc _ => by simp [jsEqB]
  | .vnull, .vrecord _ => by simp [jsEqB]
  | .vnull, .varr _ _ => by simp [jsEqB]
  | .vbigint _, .vstr _ => by simp [jsEqB]
  | .vbigint _, .vnum _ => by simp [jsEqB]
  | .vbigint _, .vbool _ => by simp [jsEqB]
  | .vbigint _, .vnull => by simp [jsEqB]
  | .vbigint _, .vfunc _ => by simp [jsEqB]
  | .vbigint _, .vrecord _ => by simp [jsEqB]
  | .vbigint _, .varr _ _ => by simp [jsEqB]
  | .vfunc _, .vstr _ => by simp [jsEqB]
  | .vfunc _, .vnum _ => by simp [jsEqB]
  | .vfunc _, .vbool _ => by simp [jsEqB]
  | .vfunc _, .vnull => by simp [jsEqB]
  | .vfunc _, .vbigint _ => by simp [jsEqB]
  | .vfunc _, .vrecord _ => by simp [jsEqB]
  | .vfunc _, .varr _ _ => by simp [jsEqB]
  | .vrecord _, .vstr _ => by simp [jsEqB]
  | .vrecord _, .vnum _ => by simp [jsEqB]
  | .vrecord _, .vbool _ => by simp [jsEqB]
  | .vrecord _, .vnull => by simp [jsEqB]
  | .vrecord _, .vbigint _ => by simp [jsEqB]
  | .vrecord _, .vfunc _ => by simp [jsEqB]
  | .vrecord _, .varr _ _ => by simp [jsEqB]
  | .varr _ _, .vstr _ => by simp [jsEqB]
  | .varr _ _, .vnum _ => by simp [jsEqB]
  | .varr _ _, .vbool _ => by simp [jsEqB]
  | .varr _ _, .vnull => by simp [jsEqB]
  | .varr _ _, .vbigint _ => by simp [jsEqB]
  | .varr _ _, .vfunc _ => by simp [jsEqB]
  | .varr _ _, .vrecord _ => by simp [jsEqB]

theorem entriesEqB_iff : ∀ es fs, entriesEqB es fs = true ↔ es = fs
  | [], [] => by simp [entriesEqB]
  | (k, v) :: es, (k2, v2) :: fs => by
      simp [entriesEqB, jsEqB_iff v v2, entriesEqB_iff es fs, and_assoc]
  | [], (_, _) :: _ => by simp [entriesEqB]
  | (_, _) :: _, [] => by simp [entriesEqB]

theorem oelemsEqB_iff : ∀ as bs, oelemsEqB as bs = true ↔ as = bs
  | [], [] => by simp [oelemsEqB]
  | none :: as, none :: bs => by simp [oelemsEqB, oelemsEqB_iff as bs]
  | some a :: as, some b :: bs => by simp [oelemsEqB, jsEqB_iff a b, oelemsEqB_iff as bs]
  | [], _ :: _ => by simp [oelemsEqB]
  | _ :: _, [] => by simp [oelemsEqB]
  | none :: _, some _ :: _ => by simp [oelemsEqB]
  | some _ :: _, none :: _ => by simp [oelemsEqB]

end

instance : DecidableEq StateValue := fun a b => decidable_of_iff _ (jsEqB_iff a b)

/-- JS `===` on possibly-`undefined` operands (`undefined === undefined` is
true, `undefined === v` is false for a defined `v`). -/
def optJsEq : Option StateValue → Option StateValue → Bool
  | none, none => true
  | some a, some b => jsEqB a b
  | _, _ => false

theorem optJsEq_iff : ∀ a b, optJsEq a b = true ↔ a = b
  | none, none => by simp [optJsEq]
  | some a, some b => by simp [optJsEq, jsEqB_iff]
  | none, some _ => by simp [optJsEq]
  | some _, none => by simp [optJsEq]

/-- True for the values with `typeof v === 'object' && v !== null`… except
`null` itself: exactly the traversable containers (records and arrays).
JS `null` has `typeof 'object'` but the source always pairs the check with
`!== null`, which this predicate builds in. -/
def isObjectLike : StateValue → Bool
  | .vrecord _ => true
  | .varr _ _ => true
  | _ => false

/-- True for arrays only (`Array.isArray`). -/
def isArray : StateValue → Bool
  | .varr _ _ => true
  | _ => false

/-- Human-readable type label as produced by the source error messages:
`typeof v`, with the source's distinct `'<null>'` label for `null`. -/
def typeLabel : StateValue → String
  | .vstr _ => "string"
  | .vnum _ => "number"
  | .vbool _ => "boolean"
  | .vnull => "<null>"
  | .vbigint _ => "bigint"
  | .vfunc _ => "function"
  | .vrecord _ => "object"
  | .varr _ _ => "object"

end StateValue

open StateValue

/-! ### JS property access and assignment on the value model -/

/-- Lookup in an entry list (JS own-property read on a record). -/
def lookupEntries : List (String × StateValue) → String → Option StateValue
  | [], _ => none
  | (k, v) :: rest, key => if k = key then some v else lookupEntries rest key

/-- Set a key in an entry list: an existing key keeps its position (as a JS
object property does), a new key is appended. -/
def setEntries : List (String × StateValue) → String → StateValue → List (String × StateValue)
  | [], key, v => [(key, v)]
  | (k, w) :: rest, key, v =>
      if k = key then (key, v) :: rest else (k, w) :: setEntries rest key v

/-- Remove a key from an entry list (JS `delete obj[key]`; absent keys are a
no-op). -/
def eraseEntries (es : List (String × StateValue)) (key : String) :
    List (String × StateValue) :=
  es.filter (fun e => e.1 ≠ key)

/-- Canonical array index: the key strings under which JS stores array
elements — those with `String(n) === key` for some `n < 2^32 - 1` (digits
without a leading zero); any other key on an array is an ordinary string
property. -/
def canonicalIndex (key : String) : Option Nat :=
  let n := digitsToNat key.toList
  if toString n = key ∧ n < 4294967295 then some n else none

theorem canonicalIndex_inj {k k' : String} {i : Nat}
    (h : canonicalIndex k = some i) (h' : canonicalIndex k' = some i) : k = k' := by
  simp only [canonicalIndex] at h h'
  split at h <;> rename_i hc
  · split at h' <;> rename_i hc'
    · simp only [Option.some.injEq] at h h'
      rw [← hc.1, ← hc'.1, h, h']
    · cases h'
  · cases h

/-- JS own-property read `v[key]` on any value.  Scalars have no
traversable own properties in the model (string character indexing and
`length` are not modelled; the store's typed traversal never relies on
them). -/
def jsGet : StateValue → String → Option StateValue
  | .vrecord es, key => lookupEntries es key
  | .varr elems props, key =>
      match canonicalIndex key with
      | some i => elems.getD i none
      | none => lookupEntries props key
  | _, _ => none

/-- JS property write `v[key] = val`.  On an array a canonical index sets
or extends the element list (new intermediate slots are holes), any other
key becomes a string property.  Writes on scalars are not reachable from
the store code (every mutated node is a record or array) and leave the
value unchanged. -/
def jsSet (v : StateValue) (key : String) (val : StateValue) : StateValue :=
  match v with
  | .vrecord es => .vrecord (setEntries es key val)
  | .varr elems props =>
      match canonicalIndex key with
      | some i =>
          if i < elems.length then .varr (elems.set i (some val)) props
          else .varr (elems ++ List.replicate (i - elems.length) none ++ [some val]) props
      | none => .varr elems (setEntries props key val)
  | other => other

/-- Shallow clone of a mid-path container as done by `deepCloneOnPath`:
`{...record}` keeps the same entries, `[...array]` keeps the element slots
but drops any non-index string properties (array spread only iterates
elements).  Only called on records and arrays. -/
def shallowCloneSub : StateValue → StateValue
  | .varr elems _ => .varr elems []
  | other => other

/-- Entries of the JS record `{...v}` built by `deepCloneOnPath` for the
root: a record spreads to its own entries; an array spreads to index-keyed
entries for its non-hole elements plus its string properties.  For scalars
the store never reaches this operation with anything but a record (the
root is a record); they are modelled as spreading to `{}` (exact for
numbers, booleans, `null`; string character spreading is not modelled). -/
def spreadEntries : StateValue → List (String × StateValue)
  | .vrecord es => es
  | .varr elems props =>
      elems.enum.filterMap
        (fun p => p.2.map (fun v => (toString p.1, v))) ++ props
  | _ => []

mutual

/-- True when no array anywhere in the value carries string properties:
the value domain of the specification's data model (§3), in which an array
is a pure element sequence. -/
def propFree : StateValue → Bool
  | .vrecord es => propFreeEntries es
  | .varr elems props => props.isEmpty && propFreeElems elems
  | _ => true

/-- All entry values are `propFree`. -/
def propFreeEntries : List (String × StateValue) → Bool
  | [] => true
  | (_, v) :: rest => propFree v && propFreeEntries rest

/-- All present slots are `propFree`. -/
def propFreeElems : List (Option StateValue) → Bool
  | [] => true
  | none :: rest => propFreeElems rest
  | some v :: rest => propFree v && propFreeElems rest

end

/-- Decidable equality for `Except` results, used to evaluate the mutator
on concrete inputs. -/
instance {ε α : Type} [DecidableEq ε] [DecidableEq α] : DecidableEq (Except ε α)
  | .error e, .error f =>
      if h : e = f then isTrue (by rw [h]) else isFalse (by intro hc; cases hc; exact h rfl)
  | .ok a, .ok b =>
      if h : a = b then isTrue (by rw [h]) else isFalse (by intro hc; cases hc; exact h rfl)
  | .error _, .ok _ => isFalse (by intro h; cases h)
  | .ok _, .error _ => isFalse (by intro h; cases h)

/-! ### Read traversal (`TrieStore._get`) -/

/-- Embedding of `TrieStore._get`: starting from the root, repeatedly read
`result = result?.[key]` until the path is exhausted or the value is
`undefined`.  Total by construction: no validation is performed. -/
def getInPath (root : StateValue) (path : List String) : Option StateValue :=
  path.foldl
    (fun result key =>
      match result with
      | none => none
      | some v => jsGet v key)
    (some root)

/-! ### Errors of the tree mutator (§7 taxonomy) -/

/-- The mutation errors thrown by `assertTruthy` calls in `src/Utils.ts`,
with their message payloads (offending sub-path and type label). -/
inductive StoreErr where
  | invalidRootType (label : String)
  | invalidArrayIndex (path : List String) (index : String)
  | nonRecordParent (path : List String) (label : String)
  | emptyPath
  | arrayElementDeleteUnsupported (path : List String)
  | internalError (path : List String) (label : String)
deriving DecidableEq

/-! ### `deepCloneOnPath` -/

/-- Result of the cloning walk: `normal` is the usual fall-through return
of the cloned root; `early` is the source's early `return clonedState`
(which returns the *inner* cloned node — dead code on all reachable
inputs, see `deepCloneOnPath`). -/
inductive CloneOut where
  | normal (v : StateValue)
  | early (v : StateValue)
deriving DecidableEq

/-- Value carried by either `CloneOut` constructor. -/
def CloneOut.unwrap : CloneOut → StateValue
  | .normal v => v
  | .early v => v

/-- Embedding of the local `deleteKey` of `deepCloneOnPath`:
`assertTruthy(!Array.isArray(stateRecord), "Can't delete element of
array"); delete stateRecord[key]`.  JS `delete` of an absent key is a
no-op; `delete` on a non-object is also a no-op (never reached). -/
def deleteKey (v : StateValue) (key : String) (fullPath : List String) :
    Except StoreErr StateValue :=
  match v with
  | .varr _ _ => .error (.arrayElementDeleteUnsupported fullPath)
  | .vrecord es => .ok (.vrecord (eraseEntries es key))
  | other => .ok other

/-- Recursive rendering of the cloning loop of `deepCloneOnPath`.  `cur` is
the source's `clonedState` (already shallow-cloned), the first list is the
remaining path, `pfx` the consumed prefix (for error messages).  At each
inner level: read the shared child, check it is `undefined` or
object-like, shallow-clone it (or start a fresh `{}` when absent and
setting), link it and descend; at the leaf apply the patch.  The empty
path never occurs (both callers guard against it). -/
def clonePatchGo (cur : StateValue) (path pfx : List String) (patch : Option StateValue) :
    Except StoreErr CloneOut :=
  match path with
  | [] => .ok (.normal cur)
  | [leaf] =>
      match patch with
      | none => (deleteKey cur leaf (pfx ++ [leaf])).map .normal
      | some v => .ok (.normal (jsSet cur leaf v))
  | key :: rest =>
      match jsGet cur key with
      | none =>
          match patch with
          | none => (deleteKey cur key (pfx ++ key :: rest)).map .early
          | some _ =>
              match clonePatchGo (.vrecord []) rest (pfx ++ [key]) patch with
              | .ok (.normal sub) => .ok (.normal (jsSet cur key sub))
              | .ok (.early v) => .ok (.early v)
              | .error e => .error e
      | some shared =>
          if shared.isObjectLike then
            match clonePatchGo (shallowCloneSub shared) rest (pfx ++ [key]) patch with
            | .ok (.normal sub) => .ok (.normal (jsSet cur key sub))
            | .ok (.early v) => .ok (.early v)
            | .error e => .error e
          else .error (.internalError (pfx ++ [key]) shared.typeLabel)

/-- Embedding of `deepCloneOnPath` (`src/Utils.ts`): spread the root into a
fresh record, clone along `path`, patch or delete the leaf.  The `early`
branch of the walk returns its inner node as the overall result, exactly
as the source's mid-loop `return clonedState` does. -/
def deepCloneOnPath (originalState : StateValue) (path : List String)
    (patch : Option StateValue) : Except StoreErr StateValue :=
  (clonePatchGo (.vrecord (spreadEntries originalState)) path [] patch).map CloneOut.unwrap

/-! ### `setInPath`, `deleteInPath`, `apply` -/

/-- True when a possibly-`undefined` value is an array
(`Array.isArray(subState)` where `subState` may be `undefined`). -/
def optIsArray : Option StateValue → Bool
  | some sv => sv.isArray
  | none => false

/-- Embedding of the validation loop of `deleteInPath`: follow
`path`, stopping with `none` (caller returns the original state) when a
child is `undefined`, failing when a traversed child is not a record or
array, and otherwise producing the parent of the leaf. -/
def deleteWalk : StateValue → List String → List String → Except StoreErr (Option StateValue)
  | sv, [], _ => .ok (some sv)
  | sv, key :: rest, pfx =>
      match jsGet sv key with
      | none => .ok none
      | some nxt =>
          if nxt.isObjectLike then deleteWalk nxt rest (pfx ++ [key])
          else .error (.nonRecordParent (pfx ++ [key]) nxt.typeLabel)

/-- Embedding of `deleteInPath` (`src/Utils.ts`): an empty path fails; a
missing intermediate or an already-absent leaf is a no-op returning the
original state; otherwise clone along the path and remove the leaf key. -/
def deleteInPath (state : StateValue) (path : List String) : Except StoreErr StateValue :=
  if hp : path = [] then .error .emptyPath
  else
    match deleteWalk state path.dropLast [] with
    | .error e => .error e
    | .ok none => .ok state
    | .ok (some sub) =>
        if (jsGet sub (path.getLast hp)).isNone then .ok state
        else deepCloneOnPath state path none

/-- Embedding of the validation loop of `setInPath`: iterate over all keys
but the last while the walked value is defined; on an array parent the key
must satisfy `isValidArrayIndex`; a traversed defined child must be a
record or array.  Produces the (possibly `undefined`) parent of the
leaf. -/
def setWalk : Option StateValue → List String → List String → Except StoreErr (Option StateValue)
  | none, _, _ => .ok none
  | some sv, [], _ => .ok (some sv)
  | some sv, key :: rest, pfx =>
      if sv.isArray ∧ ¬ isValidArrayIndex key then
        .error (.invalidArrayIndex (pfx ++ [key]) key)
      else
        match jsGet sv key with
        | none => setWalk none rest (pfx ++ [key])
        | some nxt =>
            if nxt.isObjectLike then setWalk (some nxt) rest (pfx ++ [key])
            else .error (.nonRecordParent (pfx ++ [key]) nxt.typeLabel)

/-- Embedding of `setInPath` (`src/Utils.ts`).  `undefined` delegates to
`deleteInPath`; an empty path replaces the root, which must be a record;
otherwise validate along the path, skip the write when the leaf already
holds a `===`-equal value, and clone-and-set otherwise. -/
def setInPath (state : StateValue) (path : List String) (newValue : Option StateValue) :
    Except StoreErr StateValue :=
  match newValue with
  | none => deleteInPath state path
  | some v =>
      if hp : path = [] then
        if v.isObjectLike ∧ ¬ v.isArray then .ok v
        else .error (.invalidRootType v.typeLabel)
      else
        match setWalk (some state) path.dropLast [] with
        | .error e => .error e
        | .ok subOpt =>
            let leafKey := path.getLast hp
            if optIsArray subOpt ∧ ¬ isValidArrayIndex leafKey then
              .error (.invalidArrayIndex path leafKey)
            else if optJsEq (subOpt.bind (fun sv => jsGet sv leafKey)) (some v) then
              .ok state
            else
              deepCloneOnPath state path (some v)

/-! ### Path utilities (`src/Utils.ts`) -/

/-- Embedding of `isPathPrefix(path, prefixPath)` (`src/Utils.ts`), renamed
with an `Of` suffix: true iff `prefixPath` is a prefix of `path` (the
source checks the length and then compares the elements of the candidate
one by one, which this recursion performs directly). -/
def isPathPrefixOf : List String → List String → Bool
  | _, [] => true
  | [], _ :: _ => false
  | a :: as, b :: bs => a == b && isPathPrefixOf as bs

/-- Embedding of the comparator passed to `.sort` inside `sortPaths`:
segment-wise `localeCompare`, with the shorter path first when one is a
prefix of the other. -/
def pathCmp : List String → List String → Ordering
  | [], [] => .eq
  | [], _ :: _ => .lt
  | _ :: _, [] => .gt
  | a :: as, b :: bs =>
      match strCmp a b with
      | .eq => pathCmp as bs
      | o => o

/-- Order of `pathCmp`: the sortedness predicate produced by the sort. -/
def pathLe (p q : List String) : Prop := pathCmp p q ≠ .gt

instance : DecidableRel pathLe := fun p q => by
  unfold pathLe; infer_instance

/-- Embedding of `sortPaths` (`src/Utils.ts`): a stable sort of the path
list by `pathCmp` (JS `Array.prototype.sort` on a copy). -/
def sortPaths (paths : List (List String)) : List (List String) :=
  List.insertionSort pathLe paths

/-- One pass of the inner `for j` loop shared by `selectUniquePaths` and
`selectUniquePathPrefixes` (`src/Utils.ts`), operating on the suffix of
the aliased sorted array after the current parent: every entry matched by
`test parent ·` is cleared to `none` (`filteredSubPaths[j] = undefined`)
and the parent index is bumped (`i++`), so the pass returns the updated
suffix together with the bump count.  An already-cleared entry is skipped
without a bump; on states the source can reach this never happens (the
source would read `undefined` there). -/
def markPass (test : List String → List String → Bool) (parent : List String) :
    List (Option (List String)) → List (Option (List String)) × Nat
  | [] => ([], 0)
  | none :: rest =>
      let r := markPass test parent rest
      (none :: r.1, r.2)
  | some q :: rest =>
      if test parent q then
        let r := markPass test parent rest
        (none :: r.1, r.2 + 1)
      else
        let r := markPass test parent rest
        (some q :: r.1, r.2)

/-- The outer `for i` loop shared by the two dedup functions: while at
least two entries remain (`i < length - 1`), run the inner pass for the
parent at `i`, then advance `i` past the bump count plus one, i.e. skip
that many entries of the updated suffix.  Written with explicit fuel so
that the recursion is structural; `fuel ≥ length` suffices (each step
consumes at least one entry). -/
def markOuterFuel (test : List String → List String → Bool) :
    Nat → List (Option (List String)) → List (Option (List String))
  | 0, arr => arr
  | _ + 1, [] => []
  | _ + 1, [x] => [x]
  | fuel + 1, x :: rest =>
      match x with
      | none => none :: markOuterFuel test fuel rest
      | some parent =>
          let r := markPass test parent rest
          x :: (r.1.take r.2 ++ markOuterFuel test fuel (r.1.drop r.2))

/-- The marking loops run with enough fuel. -/
def markOuter (test : List String → List String → Bool)
    (arr : List (Option (List String))) : List (Option (List String)) :=
  markOuterFuel test arr.length arr

/-- Embedding of `selectUniquePaths` (`src/Utils.ts`): sort, then clear
every later entry that is an exact duplicate of an earlier one (the inner
condition `pi.length === pj.length && isPathPrefix(pi, pj)` holds exactly
for equal paths), finally drop the cleared entries. -/
def selectUniquePaths (paths : List (List String)) : List (List String) :=
  let sorted := sortPaths paths
  (markOuter (fun pi pj => pi.length == pj.length && isPathPrefixOf pi pj)
    (sorted.map some)).filterMap id

/-- Embedding of `selectUniquePathPrefixes` (`src/Utils.ts`): a singleton
input is returned as a copy; an input containing the root path collapses
to `[[]]`; otherwise sort and clear every entry that has an earlier entry
as a prefix (`isPathPrefix(longChildPath, shortParentPath)`), then drop
the cleared entries. -/
def selectUniquePathPrefixes (paths : List (List String)) : List (List String) :=
  if paths.length == 1 then paths
  else if paths.any (fun p => p.length == 0) then [[]]
  else
    let sorted := sortPaths paths
    (markOuter (fun parent child => isPathPrefixOf child parent)
      (sorted.map some)).filterMap id

/-- An `Action` of `src/Utils.ts`: a tagged set / delete / batch command.
A `set` with value `none` is `store.set(path, undefined)`. -/
inductive Action where
  | set (path : List String) (value : Option StateValue)
  | delete (path : List String)
  | batch (actions : List Action)

mutual

/-- Embedding of `apply` (`src/Utils.ts`): dispatch on the action type; a
batch folds `apply` over its actions, an error aborting the fold (the JS
exception propagates). -/
def apply : StateValue → Action → Except StoreErr StateValue
  | state, .set path v => setInPath state path v
  | state, .delete path => deleteInPath state path
  | state, .batch actions => applyList state actions

/-- Fold of `apply` over a batch's action list. -/
def applyList : StateValue → List Action → Except StoreErr StateValue
  | state, [] => .ok state
  | state, a :: rest =>
      match apply state a with
      | .ok s2 => applyList s2 rest
      | .error e => .error e

end

mutual

/-- Embedding of `extractPaths(action, 'as-is')` (`src/Utils.ts`): the
touched paths of an action, nested batches flattened, in order. -/
def extractPathsAsIs : Action → List (List String)
  | .set path _ => [path]
  | .delete path => [path]
  | .batch actions => extractPathsListAsIs actions

/-- Concatenation of the batched actions' paths. -/
def extractPathsListAsIs : List Action → List (List String)
  | [] => []
  | a :: rest => extractPathsAsIs a ++ extractPathsListAsIs rest

end

/-- Embedding of `extractPaths(action, 'unique-and-sorted')`
(`src/Utils.ts`): the touched paths, deduplicated and sorted. -/
def extractPathsSorted (a : Action) : List (List String) :=
  selectUniquePaths (extractPathsAsIs a)

/-! ### The path trie of the `ptrie` package

The `Trie` container used by `TrieStore` comes from the external `ptrie`
package, which is not part of this repository; the specification (§1, §9)
treats it as a generic path-keyed trie with point get/set, fill-path,
"has populated descendant" and pre-order depth-first traversal.  The
definitions below are modelled from the spec accordingly. -/

/-- Modelled from the spec: the generic trie keyed by path segments (§9);
each node holds an optional stored value and its children keyed by
segment, in insertion order. -/
inductive PTrie (α : Type) where
  | node (val : Option α) (children : List (String × PTrie α))

/-- Generic association-list lookup (insertion-ordered children map). -/
def assocLookup {β : Type} : List (String × β) → String → Option β
  | [], _ => none
  | (k, v) :: rest, key => if k = key then some v else assocLookup rest key

/-- Generic association-list update; a new key is appended (JS `Map`
insertion order). -/
def assocSet {β : Type} : List (String × β) → String → β → List (String × β)
  | [], key, v => [(key, v)]
  | (k, w) :: rest, key, v =>
      if k = key then (key, v) :: rest else (k, w) :: assocSet rest key v

namespace PTrie

variable {α : Type}

/-- Modelled from the spec: the empty trie. -/
def empty : PTrie α := .node none []

/-- Stored value of the node. -/
def val : PTrie α → Option α
  | .node v _ => v

/-- Children of the node. -/
def children : PTrie α → List (String × PTrie α)
  | .node _ cs => cs

/-- Modelled from the spec: point lookup `trie.get(path)`. -/
def get : PTrie α → List String → Option α
  | .node v _, [] => v
  | .node _ cs, k :: rest =>
      match assocLookup cs k with
      | none => none
      | some t => t.get rest

/-- Modelled from the spec: `trie.set(path, value)` / `getOrSet`:
store a value at the path, creating missing nodes. -/
def setVal : PTrie α → List String → α → PTrie α
  | .node _ cs, [], a => .node (some a) cs
  | .node v cs, k :: rest, a =>
      match assocLookup cs k with
      | some t => .node v (assocSet cs k (t.setVal rest a))
      | none => .node v (cs ++ [(k, setVal empty rest a)])

/-- Modelled from the spec: `trie.fillPath(path, () => true)` marks every
ancestor-to-leaf node along the path with a value, creating missing
nodes (§4.3 step 3). -/
def fillPath : PTrie α → List String → α → PTrie α
  | .node _ cs, [], a => .node (some a) cs
  | .node _ cs, k :: rest, a =>
      .node (some a)
        (match assocLookup cs k with
          | some t => assocSet cs k (t.fillPath rest a)
          | none => cs ++ [(k, fillPath empty rest a)])

/-- Modelled from the spec: `trie.getNode(path)` — the subtree rooted at
the path, when present. -/
def subtrieAt : PTrie α → List String → Option (PTrie α)
  | t, [] => some t
  | .node _ cs, k :: rest =>
      match assocLookup cs k with
      | none => none
      | some t => subtrieAt t rest

mutual

/-- Number of stored values in the whole trie. -/
def valuesCount : PTrie α → Nat
  | .node v cs => (if v.isSome then 1 else 0) + childrenValuesCount cs

/-- Number of stored values below a children list. -/
def childrenValuesCount : List (String × PTrie α) → Nat
  | [] => 0
  | (_, t) :: rest => valuesCount t + childrenValuesCount rest

end

/-- Modelled from the spec: `trie.isEmpty` — no stored value anywhere. -/
def isEmpty (t : PTrie α) : Bool := t.valuesCount == 0

mutual

/-- Modelled from the spec: `trie.visitDfs('pre-order', visitor, start)` —
visit every node (also the valueless ones) parents-first, children in
insertion order, collecting `(full path, stored value)` pairs. -/
def preorder : PTrie α → List String → List (List String × Option α)
  | .node v cs, pre => (pre, v) :: childrenPreorder cs pre

/-- Pre-order visit of a children list. -/
def childrenPreorder : List (String × PTrie α) → List String → List (List String × Option α)
  | [], _ => []
  | (k, t) :: rest, pre => preorder t (pre ++ [k]) ++ childrenPreorder rest pre

end

end PTrie

/-! ### The store (`TrieStore.ts`) -/

/-- The per-path channel (`ObserversTrieSubject`): the sticky
`isAllDetailsMode` flag is the only state the notification pipeline
consults. -/
structure Channel where
  allDetails : Bool

/-- The mutable state of a `TrieStore`: current root, observer trie, batch
depth, actions accumulated by the open batch, and the root snapshot taken
when the outermost batch began. -/
structure Store where
  rootState : StateValue
  observers : PTrie Channel
  batchDepth : Nat
  appliedBatchActions : List Action
  rootBeforeBatch : StateValue

/-- One `subject.next({action, value, oldValue})` emission of `_notify`,
tagged with the channel's path.  `oldValue` is `none` both when the
channel does not compute details and when the previous value is absent,
exactly as in the source's `T | undefined`. -/
structure NotifyEvent where
  path : List String
  value : Option StateValue
  oldValue : Option StateValue
  action : Action

/-- Embedding of `TrieStore.selectChildPathsWithObservers`: for every
action path whose observer-trie node has a populated descendant, collect
(pre-order) the full paths of every subject in that subtree. -/
def selectChildPathsWithObservers (obs : PTrie Channel)
    (parentPaths : List (List String)) : List (List String) :=
  parentPaths.flatMap (fun path =>
    match obs.subtrieAt path with
    | none => []
    | some sub =>
        if 0 < PTrie.childrenValuesCount sub.children then
          (sub.preorder path).filterMap (fun pv => if pv.2.isSome then some pv.1 else none)
        else [])

/-- Embedding of `TrieStore._notify`: extract the unique sorted action
paths, add the subscribed descendant paths, dedupe, build the scratch
update trie by `fillPath`, and walk it in pre-order, emitting one event
per visited path that has a channel.  `before` is
`rootStateBeforeBatchStart`, `after` the current root. -/
def notifyEvents (obs : PTrie Channel) (before after : StateValue) (action : Action) :
    List NotifyEvent :=
  let uniquePathsInActions := extractPathsSorted action
  let childPaths := selectChildPathsWithObservers obs uniquePathsInActions
  let pathsToNotify := selectUniquePaths (uniquePathsInActions ++ childPaths)
  let updateTrie := pathsToNotify.foldl (fun t p => t.fillPath p true) (PTrie.empty : PTrie Bool)
  (updateTrie.preorder []).filterMap (fun pv =>
    match obs.get pv.1 with
    | none => none
    | some ch =>
        some { path := pv.1, value := getInPath after pv.1,
               oldValue := if ch.allDetails then getInPath before pv.1 else none,
               action := action })

/-- Embedding of `TrieStore._apply`: snapshot the root when no batch is
open, apply the action (an error propagates to the caller and leaves the
root untouched), short-circuit when nothing changed since the snapshot or
nobody observes, defer inside a batch, notify otherwise. -/
def storeApply (s : Store) (action : Action) :
    Store × List NotifyEvent × Option StoreErr :=
  let s0 := if s.batchDepth = 0 then { s with rootBeforeBatch := s.rootState } else s
  match apply s0.rootState action with
  | .error e => (s0, [], some e)
  | .ok newRoot =>
      let s2 := { s0 with rootState := newRoot }
      if StateValue.jsEqB s2.rootState s2.rootBeforeBatch || s2.observers.isEmpty then
        (s2, [], none)
      else if 0 < s2.batchDepth then
        ({ s2 with appliedBatchActions := s2.appliedBatchActions ++ [action] }, [], none)
      else
        (s2, notifyEvents s2.observers s2.rootBeforeBatch s2.rootState action, none)

/-- Embedding of `TrieStore.set` without a caller-supplied comparator
(`compareFn?.(…)` is `undefined`, hence falsy, so `_apply` runs). -/
def storeSet (s : Store) (path : List String) (v : Option StateValue) :
    Store × List NotifyEvent × Option StoreErr :=
  storeApply s (.set path v)

/-- Embedding of `TrieStore.delete`. -/
def storeDelete (s : Store) (path : List String) :
    Store × List NotifyEvent × Option StoreErr :=
  storeApply s (.delete path)

/-- A deep embedding of the store calls a batch body performs: plain
`set` / `delete` calls and nested `runInBatch` scopes. -/
inductive StoreOp where
  | opSet (path : List String) (value : Option StateValue)
  | opDelete (path : List String)
  | opBatch (ops : List StoreOp)

/-- The `finally` block of `runInBatch`: decrement the depth and, when the
outermost batch has completed with pending actions, emit the single
combined batch notification.  Runs whether or not the body raised. -/
def batchEpilogue : Store × List NotifyEvent × Option StoreErr →
    Store × List NotifyEvent × Option StoreErr
  | (s2, evs, err) =>
      let s3 := { s2 with batchDepth := s2.batchDepth - 1 }
      if s3.batchDepth = 0 ∧ 0 < s3.appliedBatchActions.length then
        let batchAction := Action.batch s3.appliedBatchActions
        let s4 := { s3 with appliedBatchActions := [] }
        (s4, evs ++ notifyEvents s4.observers s4.rootBeforeBatch s4.rootState batchAction, err)
      else (s3, evs, err)

mutual

/-- Run one body operation. -/
def execOp (s : Store) : StoreOp → Store × List NotifyEvent × Option StoreErr
  | .opSet p v => storeApply s (.set p v)
  | .opDelete p => storeApply s (.delete p)
  | .opBatch ops => batchEpilogue (execOps { s with batchDepth := s.batchDepth + 1 } ops)

/-- Run a batch body: operations execute in order until one raises; the
raised error aborts the rest of the body and propagates. -/
def execOps (s : Store) : List StoreOp → Store × List NotifyEvent × Option StoreErr
  | [] => (s, [], none)
  | op :: rest =>
      match execOp s op with
      | (s2, evs, none) =>
          let r := execOps s2 rest
          (r.1, evs ++ r.2.1, r.2.2)
      | (s2, evs, some e) => (s2, evs, some e)

end

/-- Embedding of `TrieStore.runInBatch`: increment the depth, run the
body (which may raise after a prefix of its operations), and always run
the epilogue. -/
def runInBatch (s : Store) (ops : List StoreOp) :
    Store × List NotifyEvent × Option StoreErr :=
  batchEpilogue (execOps { s with batchDepth := s.batchDepth + 1 } ops)

/-! ### The subscriber-side pipeline (`TrieStore._observeChanges`) -/

/-- A `StateChange` as delivered to an `observeChanges` subscriber. -/
structure StateChange where
  value : Option StateValue
  oldValue : Option StateValue
  paths : List (List String)

/-- Embedding of the `paths` computation in the `map` stage of
`_observeChanges`: with details on, take the action's touched paths, for a
non-root subscription keep those below the subscribed path and strip the
prefix, and collapse with `selectUniquePathPrefixes`; with details off
return the shared empty stub. -/
def changePaths (q : List String) (allDetails : Bool) (a : Action) : List (List String) :=
  if allDetails then
    let fullPaths := extractPathsAsIs a
    let subPaths :=
      if 0 < q.length then
        (fullPaths.filter (fun fp => isPathPrefixOf fp q)).map (fun fp => fp.drop q.length)
      else fullPaths
    selectUniquePathPrefixes subPaths
  else []

/-- Embedding of the `filter` stage of `_observeChanges`: with no
excluded paths there is no trie and everything passes; otherwise the event
passes iff some touched path is not excluded. -/
def excludeFilter (excludes : List (List String)) (a : Action) : Bool :=
  if excludes.isEmpty then true
  else (extractPathsAsIs a).any (fun p => !(excludes.contains p))

/-- What a subscriber at path `q` receives from one channel emission:
`none` when the exclude filter drops it, otherwise the mapped
`StateChange` (the `paths` computation uses the channel's sticky details
flag). -/
def subscriberView (q : List String) (excludes : List (List String))
    (chAllDetails : Bool) (ev : NotifyEvent) : Option StateChange :=
  if excludeFilter excludes ev.action then
    some { value := ev.value, oldValue := ev.oldValue,
           paths := changePaths q chAllDetails ev.action }
  else none

/-- True exactly for records (`typeof v === 'object' && v !== null &&
!Array.isArray(v)`). -/
def StateValue.isRecord : StateValue → Bool
  | .vrecord _ => true
  | _ => false

/-! ### Lemmas: entry lists and array slots -/

theorem lookup_setEntries_self (es : List (String × StateValue)) (k : String) (v : StateValue) :
    lookupEntries (setEntries es k v) k = some v := by
  induction es with
  | nil => simp [setEntries, lookupEntries]
  | cons e rest ih =>
      obtain ⟨k', w⟩ := e
      by_cases hk : k' = k
      · simp [setEntries, hk, lookupEntries]
      · simp [setEntries, hk, lookupEntries, ih]

theorem lookup_setEntries_ne (es : List (String × StateValue)) {k k' : String}
    (v : StateValue) (h : k' ≠ k) :
    lookupEntries (setEntries es k v) k' = lookupEntries es k' := by
  have hne : k ≠ k' := fun he => h he.symm
  induction es with
  | nil => simp [setEntries, lookupEntries, hne]
  | cons e rest ih =>
      obtain ⟨k0, w⟩ := e
      by_cases hk : k0 = k
      · subst hk
        simp [setEntries, lookupEntries, hne]
      · simp [setEntries, hk, lookupEntries, ih]

theorem lookup_eraseEntries_self (es : List (String × StateValue)) (k : String) :
    lookupEntries (eraseEntries es k) k = none := by
  induction es with
  | nil => simp [eraseEntries, lookupEntries]
  | cons e rest ih =>
      obtain ⟨k0, w⟩ := e
      by_cases hk : k0 = k
      · simpa [eraseEntries, hk] using ih
      · simpa [eraseEntries, hk, lookupEntries] using ih

theorem lookup_eraseEntries_ne (es : List (String × StateValue)) {k k' : String} (h : k' ≠ k) :
    lookupEntries (eraseEntries es k) k' = lookupEntries es k' := by
  induction es with
  | nil => simp [eraseEntries, lookupEntries]
  | cons e rest ih =>
      obtain ⟨k0, w⟩ := e
      by_cases hk : k0 = k
      · subst hk
        have hne : k0 ≠ k' := fun he => h he.symm
        simpa [eraseEntries, lookupEntries, hne] using ih
      · by_cases hk' : k0 = k'
        · subst hk'
          simp [eraseEntries, hk, lookupEntries]
        · simpa [eraseEntries, hk, lookupEntries, hk'] using ih

theorem getD_extend_self (l : List (Option StateValue)) (i : Nat) (w : StateValue)
    (h : l.length ≤ i) :
    (l ++ List.replicate (i - l.length) none ++ [some w]).getD i none = some w := by
  rw [List.getD_eq_getElem?_getD, List.append_assoc, List.getElem?_append_right h]
  rw [List.getElem?_append_right (by simp)]
  simp

theorem getD_extend_ne (l : List (Option StateValue)) {i j : Nat} (w : StateValue)
    (h : l.length ≤ i) (hne : j ≠ i) :
    (l ++ List.replicate (i - l.length) none ++ [some w]).getD j none = l.getD j none := by
  rw [List.getD_eq_getElem?_getD, List.getD_eq_getElem?_getD, List.append_assoc]
  by_cases hj : j < l.length
  · rw [List.getElem?_append]
    simp [hj]
  · push_neg at hj
    rw [List.getElem?_append_right hj]
    have hlj : l[j]? = none := by
      rw [List.getElem?_eq_none_iff]
      exact hj
    rw [hlj]
    by_cases hjr : j - l.length < i - l.length
    · rw [List.getElem?_append]
      simp only [List.length_replicate, hjr, if_pos, List.getElem?_replicate]
      simp [hjr]
    · push_neg at hjr
      rw [List.getElem?_append_right (by simpa using hjr)]
      have hix : (0 : Nat) < j - l.length - (List.replicate (i - l.length)
          (none : Option StateValue)).length := by
        simp only [List.length_replicate]
        omega
      rcases Nat.exists_eq_add_of_lt hix with ⟨m, hm⟩
      rw [show j - l.length - (List.replicate (i - l.length)
          (none : Option StateValue)).length = m + 1 by omega]
      rfl

/-! ### Lemmas: `jsGet` after `jsSet` -/

theorem jsGet_some_isObjectLike {v : StateValue} {k : String} {w : StateValue}
    (h : jsGet v k = some w) : v.isObjectLike = true := by
  cases v <;> first | rfl | simp [jsGet] at h

theorem jsGet_jsSet_self {v : StateValue} (hobj : v.isObjectLike = true)
    (k : String) (w : StateValue) : jsGet (jsSet v k w) k = some w := by
  cases v with
  | vrecord es => simp [jsSet, jsGet, lookup_setEntries_self]
  | varr elems props =>
      rcases hci : canonicalIndex k with _ | i
      · simp [jsSet, hci, jsGet, lookup_setEntries_self]
      · by_cases hlt : i < elems.length
        · have hres : jsSet (StateValue.varr elems props) k w =
              .varr (elems.set i (some w)) props := by
            simp [jsSet, hci, hlt]
          rw [hres]
          simp [jsGet, hci, List.getD_eq_getElem?_getD, List.getElem?_set_self hlt]
        · push_neg at hlt
          have hres : jsSet (StateValue.varr elems props) k w =
              .varr (elems ++ List.replicate (i - elems.length) none ++ [some w]) props := by
            simp [jsSet, hci, not_lt.mpr hlt]
          rw [hres]
          simp only [jsGet, hci]
          exact getD_extend_self elems i w hlt
  | vstr s => simp [StateValue.isObjectLike] at hobj
  | vnum n => simp [StateValue.isObjectLike] at hobj
  | vbool b => simp [StateValue.isObjectLike] at hobj
  | vnull => simp [StateValue.isObjectLike] at hobj
  | vbigint n => simp [StateValue.isObjectLike] at hobj
  | vfunc id => simp [StateValue.isObjectLike] at hobj

theorem jsGet_jsSet_ne (v : StateValue) {k k' : String} (w : StateValue) (h : k' ≠ k) :
    jsGet (jsSet v k w) k' = jsGet v k' := by
  cases v with
  | vrecord es => simp [jsSet, jsGet, lookup_setEntries_ne _ _ h]
  | varr elems props =>
      rcases hci : canonicalIndex k with _ | i
      · have hres : jsSet (StateValue.varr elems props) k w =
            .varr elems (setEntries props k w) := by
          simp [jsSet, hci]
        rw [hres]
        rcases hci' : canonicalIndex k' with _ | j
        · simp [jsGet, hci', lookup_setEntries_ne _ _ h]
        · simp [jsGet, hci']
      · have hij : ∀ j, canonicalIndex k' = some j → j ≠ i := by
          intro j hj hji
          exact h (canonicalIndex_inj hj (hji ▸ hci))
        by_cases hlt : i < elems.length
        · have hres : jsSet (StateValue.varr elems props) k w =
              .varr (elems.set i (some w)) props := by
            simp [jsSet, hci, hlt]
          rw [hres]
          rcases hci' : canonicalIndex k' with _ | j
          · simp [jsGet, hci']
          · have hji := hij j hci'
            simp [jsGet, hci', List.getD_eq_getElem?_getD,
              List.getElem?_set_ne (Ne.symm hji)]
        · push_neg at hlt
          have hres : jsSet (StateValue.varr elems props) k w =
              .varr (elems ++ List.replicate (i - elems.length) none ++ [some w]) props := by
            simp [jsSet, hci, not_lt.mpr hlt]
          rw [hres]
          rcases hci' : canonicalIndex k' with _ | j
          · simp [jsGet, hci']
          · simp only [jsGet, hci']
            exact getD_extend_ne elems w hlt (hij j hci')
  | vstr s => rfl
  | vnum n => rfl
  | vbool b => rfl
  | vnull => rfl
  | vbigint n => rfl
  | vfunc id => rfl

/-! ### Lemmas: `getInPath` recurrences -/

theorem getFold_none (p : List String) :
    p.foldl
      (fun result key =>
        match result with
        | none => none
        | some v => jsGet v key)
      none = none := by
  induction p with
  | nil => rfl
  | cons k rest ih => simpa [List.foldl] using ih

theorem getInPath_nil (s : StateValue) : getInPath s [] = some s := rfl

theorem getInPath_cons (s : StateValue) (k : String) (rest : List String) :
    getInPath s (k :: rest) =
      match jsGet s k with
      | none => none
      | some v => getInPath v rest := by
  simp only [getInPath, List.foldl]
  rcases h : jsGet s k with _ | v
  · exact getFold_none rest
  · rfl

theorem getInPath_append (s : StateValue) (xs ys : List String) :
    getInPath s (xs ++ ys) =
      match getInPath s xs with
      | none => none
      | some v => getInPath v ys := by
  induction xs generalizing s with
  | nil => simp [getInPath_nil]
  | cons k rest ih =>
      rw [List.cons_append, getInPath_cons, getInPath_cons]
      rcases jsGet s k with _ | v
      · rfl
      · exact ih v

theorem jsGet_not_objectLike {v : StateValue} (h : v.isObjectLike = false) (k : String) :
    jsGet v k = none := by
  cases v <;> first | rfl | simp [StateValue.isObjectLike] at h

theorem shallowCloneSub_objectLike {v : StateValue} (h : v.isObjectLike = true) :
    (shallowCloneSub v).isObjectLike = true := by
  cases v <;> first | rfl | simp [StateValue.isObjectLike] at h

/-! ### Lemmas: the validation walks against `getInPath` -/

theorem setWalk_none (keys : List String) (pfx : List String) :
    setWalk none keys pfx = .ok none := by cases keys <;> rfl

theorem setWalkOk_get : ∀ (keys : List String) {s : StateValue} {pfx subOpt},
    setWalk (some s) keys pfx = .ok subOpt → getInPath s keys = subOpt
  | [], s, pfx, subOpt => by
      intro h
      simp only [setWalk, Except.ok.injEq] at h
      rw [← h]
      exact getInPath_nil s
  | k :: rest, s, pfx, subOpt => by
      intro h
      simp only [setWalk] at h
      split at h
      · cases h
      · split at h
        · rename_i hg
          simp only [setWalk_none, Except.ok.injEq] at h
          rw [← h, getInPath_cons, hg]
        · rename_i nxt hg
          split at h
          · rw [getInPath_cons, hg]
            exact setWalkOk_get rest h
          · cases h

theorem deleteWalkNone_get : ∀ (keys : List String) {s : StateValue} {pfx},
    deleteWalk s keys pfx = .ok none → ∀ extra, getInPath s (keys ++ extra) = none
  | [], s, pfx => by
      intro h
      simp [deleteWalk] at h
  | k :: rest, s, pfx => by
      intro h extra
      simp only [deleteWalk] at h
      split at h
      · rename_i hg
        rw [List.cons_append, getInPath_cons, hg]
      · rename_i nxt hg
        split at h
        · rw [List.cons_append, getInPath_cons, hg]
          exact deleteWalkNone_get rest h extra
        · cases h

theorem deleteWalkSome_get : ∀ (keys : List String) {s : StateValue} {pfx sub},
    deleteWalk s keys pfx = .ok (some sub) → getInPath s keys = some sub
  | [], s, pfx, sub => by
      intro h
      simp only [deleteWalk, Except.ok.injEq, Option.some.injEq] at h
      rw [← h]
      exact getInPath_nil s
  | k :: rest, s, pfx, sub => by
      intro h
      simp only [deleteWalk] at h
      split at h
      · rename_i hg
        simp only [Except.ok.injEq] at h
        cases h
      · rename_i nxt hg
        split at h
        · rw [getInPath_cons, hg]
          exact deleteWalkSome_get rest h
        · cases h

/-! ### Lemmas: the cloning walk round trips -/

theorem clonePatchGo_set_get : ∀ (p : List String) {cur : StateValue} {pfx out}
    (v : StateValue), p ≠ [] → cur.isObjectLike = true →
    clonePatchGo cur p pfx (some v) = .ok out →
    ∃ w, out = .normal w ∧ getInPath w p = some v
  | [], _, _, _, _ => by intro hne; exact absurd rfl hne
  | [leaf], cur, pfx, out, v => by
      intro _ hobj h
      simp only [clonePatchGo, Except.ok.injEq] at h
      refine ⟨jsSet cur leaf v, h.symm, ?_⟩
      rw [getInPath_cons, jsGet_jsSet_self hobj leaf v]
      exact getInPath_nil v
  | k0 :: k1 :: rest, cur, pfx, out, v => by
      intro _ hobj h
      simp only [clonePatchGo] at h
      split at h
      · rename_i hg
        split at h
        · rename_i sub hin
          obtain ⟨w2, hw2, hgw2⟩ :=
            @clonePatchGo_set_get (k1 :: rest) (.vrecord []) (pfx ++ [k0]) _ v
              (by simp) rfl hin
          simp only [CloneOut.normal.injEq] at hw2
          subst hw2
          simp only [Except.ok.injEq] at h
          refine ⟨jsSet cur k0 sub, h.symm, ?_⟩
          rw [getInPath_cons, jsGet_jsSet_self hobj k0 sub]
          exact hgw2
        · rename_i w2 hin
          obtain ⟨w3, hw3, hgw3⟩ :=
            @clonePatchGo_set_get (k1 :: rest) (.vrecord []) (pfx ++ [k0]) _ v
              (by simp) rfl hin
          cases hw3
        · cases h
      · rename_i shared hg
        split at h
        · rename_i hso
          split at h
          · rename_i sub hin
            obtain ⟨w2, hw2, hgw2⟩ :=
              @clonePatchGo_set_get (k1 :: rest) (shallowCloneSub shared) (pfx ++ [k0]) _ v
                (by simp) (shallowCloneSub_objectLike hso) hin
            simp only [CloneOut.normal.injEq] at hw2
            subst hw2
            simp only [Except.ok.injEq] at h
            refine ⟨jsSet cur k0 sub, h.symm, ?_⟩
            rw [getInPath_cons, jsGet_jsSet_self hobj k0 sub]
            exact hgw2
          · rename_i w2 hin
            obtain ⟨w3, hw3, hgw3⟩ :=
              @clonePatchGo_set_get (k1 :: rest) (shallowCloneSub shared) (pfx ++ [k0]) _ v
                (by simp) (shallowCloneSub_objectLike hso) hin
            cases hw3
          · cases h
        · cases h

theorem clonePatchGo_del_leaf {cur : StateValue} {leaf : String} {pfx : List String}
    {out : CloneOut} (h : clonePatchGo cur [leaf] pfx none = .ok out) :
    ∃ w, out = .normal w ∧ getInPath w [leaf] = none := by
  simp only [clonePatchGo] at h
  cases cur with
  | varr elems props => simp [deleteKey, Except.map] at h
  | vrecord es =>
      simp only [deleteKey, Except.map, Except.ok.injEq] at h
      refine ⟨_, h.symm, ?_⟩
      rw [getInPath_cons]
      simp [jsGet, lookup_eraseEntries_self]
  | vstr s =>
      simp only [deleteKey, Except.map, Except.ok.injEq] at h
      exact ⟨_, h.symm, by rw [getInPath_cons]; simp [jsGet]⟩
  | vnum n =>
      simp only [deleteKey, Except.map, Except.ok.injEq] at h
      exact ⟨_, h.symm, by rw [getInPath_cons]; simp [jsGet]⟩
  | vbool b =>
      simp only [deleteKey, Except.map, Except.ok.injEq] at h
      exact ⟨_, h.symm, by rw [getInPath_cons]; simp [jsGet]⟩
  | vnull =>
      simp only [deleteKey, Except.map, Except.ok.injEq] at h
      exact ⟨_, h.symm, by rw [getInPath_cons]; simp [jsGet]⟩
  | vbigint n =>
      simp only [deleteKey, Except.map, Except.ok.injEq] at h
      exact ⟨_, h.symm, by rw [getInPath_cons]; simp [jsGet]⟩
  | vfunc id =>
      simp only [deleteKey, Except.map, Except.ok.injEq] at h
      exact ⟨_, h.symm, by rw [getInPath_cons]; simp [jsGet]⟩

theorem shallowCloneSub_rel (nxt : StateValue) : ∀ k,
    jsGet (shallowCloneSub nxt) k = jsGet nxt k ∨
      ((shallowCloneSub nxt).isArray = true ∧ jsGet (shallowCloneSub nxt) k = none) := by
  intro k
  cases nxt with
  | varr elems props =>
      rcases hci : canonicalIndex k with _ | i
      · right
        exact ⟨rfl, by simp [shallowCloneSub, jsGet, hci, lookupEntries]⟩
      · left
        simp [shallowCloneSub, jsGet, hci]
  | vrecord es => left; rfl
  | vstr s => left; rfl
  | vnum n => left; rfl
  | vbool b => left; rfl
  | vnull => left; rfl
  | vbigint n => left; rfl
  | vfunc id => left; rfl

theorem clonePatchGo_del_roundtrip : ∀ (keys : List String) {leaf : String}
    {orig cur sub : StateValue} {pfx pfx2 out},
    deleteWalk orig keys pfx = .ok (some sub) →
    (∀ k, jsGet cur k = jsGet orig k ∨ (cur.isArray = true ∧ jsGet cur k = none)) →
    clonePatchGo cur (keys ++ [leaf]) pfx2 none = .ok out →
    ∃ w, out = .normal w ∧ getInPath w (keys ++ [leaf]) = none
  | [], leaf, orig, cur, sub, pfx, pfx2, out => by
      intro _ _ h
      exact clonePatchGo_del_leaf h
  | k0 :: ktl, leaf, orig, cur, sub, pfx, pfx2, out => by
      intro hwalk hrel h
      simp only [deleteWalk] at hwalk
      split at hwalk
      · simp only [Except.ok.injEq] at hwalk
        cases hwalk
      · rename_i nxt hgo
        split at hwalk
        · rename_i hno
          -- the clone reads the same child or is a property-stripped array
          have hcur : jsGet cur k0 = some nxt := by
            rcases hrel k0 with heq | ⟨harr, hnone⟩
            · rw [heq, hgo]
            · exfalso
              cases ktl with
              | nil =>
                  simp only [List.cons_append, List.nil_append, clonePatchGo, hnone] at h
                  cases cur <;> simp [deleteKey, StateValue.isArray, Except.map] at harr h
              | cons k1 ktl2 =>
                  simp only [List.cons_append, clonePatchGo, hnone] at h
                  cases cur <;> simp [deleteKey, StateValue.isArray, Except.map] at harr h
          have hred : clonePatchGo cur ((k0 :: ktl) ++ [leaf]) pfx2 none =
              match clonePatchGo (shallowCloneSub nxt) (ktl ++ [leaf])
                  (pfx2 ++ [k0]) none with
              | .ok (.normal s2) => .ok (.normal (jsSet cur k0 s2))
              | .ok (.early v2) => .ok (.early v2)
              | .error e => .error e := by
            cases ktl with
            | nil =>
                simp only [List.cons_append, List.nil_append, clonePatchGo, hcur,
                  if_pos hno]
            | cons k1 ktl2 =>
                simp only [List.cons_append, clonePatchGo, hcur, if_pos hno]
                rfl
          rw [hred] at h
          split at h
          · rename_i s2 hin
            obtain ⟨w2, hw2, hgw2⟩ :=
              clonePatchGo_del_roundtrip ktl hwalk (shallowCloneSub_rel nxt) hin
            simp only [CloneOut.normal.injEq] at hw2
            subst hw2
            simp only [Except.ok.injEq] at h
            refine ⟨jsSet cur k0 s2, h.symm, ?_⟩
            have hcobj : cur.isObjectLike = true := jsGet_some_isObjectLike hcur
            rw [List.cons_append, getInPath_cons, jsGet_jsSet_self hcobj k0 s2]
            exact hgw2
          · rename_i w2 hin
            obtain ⟨w3, hw3, hgw3⟩ :=
              clonePatchGo_del_roundtrip ktl hwalk (shallowCloneSub_rel nxt) hin
            cases hw3
          · cases h
        · cases hwalk

/-! ### Round trip of the mutator -/

theorem setInPath_roundtrip {s : StateValue} {p : List String} {v s' : StateValue}
    (h : setInPath s p (some v) = .ok s') : getInPath s' p = some v := by
  simp only [setInPath] at h
  split at h
  · rename_i hp
    subst hp
    split at h
    · simp only [Except.ok.injEq] at h
      rw [← h]
      exact getInPath_nil v
    · cases h
  · rename_i hp
    split at h
    · cases h
    · rename_i subOpt hwalk
      split at h
      · cases h
      · split at h
        · rename_i hjseq
          simp only [Except.ok.injEq] at h
          have hs2 : s' = s := h.symm
          subst hs2
          have hb : subOpt.bind (fun sv => jsGet sv (p.getLast hp)) = some v :=
            (optJsEq_iff _ _).mp hjseq
          obtain ⟨sub, hsub, hleaf⟩ := Option.bind_eq_some.mp hb
          have hwg : getInPath s' p.dropLast = subOpt := setWalkOk_get _ hwalk
          have hdec := List.dropLast_append_getLast hp
          calc getInPath s' p = getInPath s' (p.dropLast ++ [p.getLast hp]) := by rw [hdec]
            _ = some v := by
                rw [getInPath_append, hwg, hsub]
                show getInPath sub [p.getLast hp] = some v
                rw [getInPath_cons, hleaf]
                rfl
        · simp only [deepCloneOnPath] at h
          rcases hcl : clonePatchGo (.vrecord (spreadEntries s)) p [] (some v)
            with e | out <;> rw [hcl] at h
          · cases h
          · obtain ⟨w, hw, hgw⟩ :=
              @clonePatchGo_set_get p (.vrecord (spreadEntries s)) [] out v hp rfl hcl
            subst hw
            simp only [Except.map, Except.ok.injEq, CloneOut.unwrap] at h
            rw [← h]
            exact hgw

theorem deleteInPath_roundtrip {s : StateValue} {p : List String} {s' : StateValue}
    (hrec : s.isRecord = true) (h : deleteInPath s p = .ok s') : getInPath s' p = none := by
  simp only [deleteInPath] at h
  split at h
  · cases h
  · rename_i hp
    split at h
    · cases h
    · rename_i hwalk
      simp only [Except.ok.injEq] at h
      have hs2 : s' = s := h.symm
      subst hs2
      have hdec := List.dropLast_append_getLast hp
      rw [← hdec]
      exact deleteWalkNone_get _ hwalk _
    · rename_i sub hwalk
      split at h
      · rename_i hleaf
        simp only [Except.ok.injEq] at h
        have hs2 : s' = s := h.symm
        subst hs2
        have hwg : getInPath s' p.dropLast = some sub := deleteWalkSome_get _ hwalk
        have hdec := List.dropLast_append_getLast hp
        rw [← hdec, getInPath_append, hwg]
        show getInPath sub [p.getLast hp] = none
        rw [getInPath_cons, Option.isNone_iff_eq_none.mp hleaf]
      · simp only [deepCloneOnPath] at h
        obtain ⟨es, hes⟩ : ∃ es, s = .vrecord es := by
          cases s <;> simp [StateValue.isRecord] at hrec
          exact ⟨_, rfl⟩
        have hdec := List.dropLast_append_getLast hp
        rcases hcl : clonePatchGo (.vrecord (spreadEntries s)) p [] none
          with e | out <;> rw [hcl] at h
        · cases h
        · rw [← hdec] at hcl
          have hrel : ∀ k, jsGet (StateValue.vrecord (spreadEntries s)) k = jsGet s k ∨
              ((StateValue.vrecord (spreadEntries s)).isArray = true ∧
                jsGet (StateValue.vrecord (spreadEntries s)) k = none) := by
            intro k
            left
            rw [hes]
            rfl
          obtain ⟨w, hw, hgw⟩ :=
            clonePatchGo_del_roundtrip p.dropLast hwalk hrel hcl
          subst hw
          simp only [Except.map, Except.ok.injEq, CloneOut.unwrap] at h
          rw [← h, ← hdec]
          exact hgw

/-! ### Lemmas: prop-free values and clone identity -/

theorem propFreeEntries_lookup : ∀ (es : List (String × StateValue)) {k w},
    propFreeEntries es = true → lookupEntries es k = some w → propFree w = true
  | [], k, w => by intro _ h; cases h
  | (k0, v0) :: rest, k, w => by
      intro hpf h
      simp only [propFreeEntries, Bool.and_eq_true] at hpf
      simp only [lookupEntries] at h
      split at h
      · simp only [Option.some.injEq] at h
        rw [← h]
        exact hpf.1
      · exact propFreeEntries_lookup rest hpf.2 h

theorem propFreeElems_getD : ∀ (elems : List (Option StateValue)) {i : Nat} {w},
    propFreeElems elems = true → elems.getD i none = some w → propFree w = true
  | [], i, w => by intro _ h; simp [List.getD] at h
  | e :: rest, i, w => by
      intro hpf h
      cases i with
      | zero =>
          cases e with
          | none => simp [List.getD] at h
          | some v0 =>
              simp only [propFreeElems, Bool.and_eq_true] at hpf
              have hvw : v0 = w := by simpa [List.getD] using h
              rw [← hvw]
              exact hpf.1
      | succ j =>
          have h2 : rest.getD j none = some w := by
            simpa [List.getD] using h
          cases e with
          | none => exact propFreeElems_getD rest (by simpa [propFreeElems] using hpf) h2
          | some v0 =>
              simp only [propFreeElems, Bool.and_eq_true] at hpf
              exact propFreeElems_getD rest hpf.2 h2

theorem propFree_jsGet {v : StateValue} {k : String} {w : StateValue}
    (hpf : propFree v = true) (h : jsGet v k = some w) : propFree w = true := by
  cases v with
  | vrecord es => exact propFreeEntries_lookup es (by simpa [propFree] using hpf) h
  | varr elems props =>
      simp only [propFree, Bool.and_eq_true, List.isEmpty_iff] at hpf
      simp only [jsGet] at h
      split at h
      · exact propFreeElems_getD elems hpf.2 h
      · rw [hpf.1] at h
        cases h
  | vstr s => cases h
  | vnum n => cases h
  | vbool b => cases h
  | vnull => cases h
  | vbigint n => cases h
  | vfunc id => cases h

theorem shallowCloneSub_propFree_id {v : StateValue} (hpf : propFree v = true) :
    shallowCloneSub v = v := by
  cases v with
  | varr elems props =>
      simp only [propFree, Bool.and_eq_true, List.isEmpty_iff] at hpf
      simp [shallowCloneSub, hpf.1]
  | vrecord es => rfl
  | vstr s => rfl
  | vnum n => rfl
  | vbool b => rfl
  | vnull => rfl
  | vbigint n => rfl
  | vfunc id => rfl

theorem jsSet_not_objectLike {v : StateValue} (h : v.isObjectLike = false)
    (k : String) (w : StateValue) : jsSet v k w = v := by
  cases v <;> first | rfl | simp [StateValue.isObjectLike] at h

theorem isPathPrefixOf_nil_right (p : List String) : isPathPrefixOf p [] = true := by
  cases p <;> rfl

/-! ### Lemmas: off-path preservation of the cloning walk -/

theorem clonePatchGo_set_preserve : ∀ (p : List String) {cur : StateValue} {pfx out}
    (v : StateValue), p ≠ [] → propFree cur = true →
    clonePatchGo cur p pfx (some v) = .ok out →
    ∀ q, isPathPrefixOf p q = false → isPathPrefixOf q p = false →
      getInPath out.unwrap q = getInPath cur q
  | [], _, _, _, _ => by intro hne; exact absurd rfl hne
  | [leaf], cur, pfx, out, v => by
      intro _ _ h q hq1 hq2
      simp only [clonePatchGo, Except.ok.injEq] at h
      rw [← h]
      cases q with
      | nil => rw [isPathPrefixOf_nil_right] at hq1; cases hq1
      | cons qk qtl =>
          have hne : qk ≠ leaf := by
            intro he
            subst he
            simp [isPathPrefixOf] at hq2
          show getInPath (jsSet cur leaf v) (qk :: qtl) = getInPath cur (qk :: qtl)
          rw [getInPath_cons, getInPath_cons, jsGet_jsSet_ne cur v hne]
  | k0 :: k1 :: rest, cur, pfx, out, v => by
      intro _ hpf h q hq1 hq2
      by_cases hobj : cur.isObjectLike = true
      · simp only [clonePatchGo] at h
        split at h
        · rename_i hg
          split at h
          · rename_i sub hin
            simp only [Except.ok.injEq] at h
            rw [← h]
            cases q with
            | nil => rw [isPathPrefixOf_nil_right] at hq1; cases hq1
            | cons qk qtl =>
                by_cases hqk : qk = k0
                · subst hqk
                  simp only [isPathPrefixOf, beq_self_eq_true, Bool.true_and] at hq1 hq2
                  have hpres2 : getInPath sub qtl = getInPath (.vrecord []) qtl :=
                    @clonePatchGo_set_preserve (k1 :: rest) (.vrecord [])
                      (pfx ++ [qk]) (.normal sub) v (by simp) rfl hin qtl hq1 hq2
                  show getInPath (jsSet cur qk sub) (qk :: qtl) = getInPath cur (qk :: qtl)
                  rw [getInPath_cons, getInPath_cons, jsGet_jsSet_self hobj qk sub, hg]
                  show getInPath sub qtl = none
                  cases qtl with
                  | nil => rw [isPathPrefixOf_nil_right] at hq1; cases hq1
                  | cons qh qt =>
                      rw [hpres2, getInPath_cons]
                      rfl
                · show getInPath (jsSet cur k0 sub) (qk :: qtl) = getInPath cur (qk :: qtl)
                  rw [getInPath_cons, getInPath_cons, jsGet_jsSet_ne cur sub hqk]
          · rename_i w2 hin
            obtain ⟨w3, hw3, _⟩ :=
              @clonePatchGo_set_get (k1 :: rest) (.vrecord []) (pfx ++ [k0]) _ v
                (by simp) rfl hin
            cases hw3
          · cases h
        · rename_i shared hg
          split at h
          · rename_i hso
            split at h
            · rename_i sub hin
              simp only [Except.ok.injEq] at h
              rw [← h]
              have hpfs : propFree shared = true := propFree_jsGet hpf hg
              rw [shallowCloneSub_propFree_id hpfs] at hin
              cases q with
              | nil => rw [isPathPrefixOf_nil_right] at hq1; cases hq1
              | cons qk qtl =>
                  by_cases hqk : qk = k0
                  · subst hqk
                    simp only [isPathPrefixOf, beq_self_eq_true, Bool.true_and] at hq1 hq2
                    have hpres2 : getInPath sub qtl = getInPath shared qtl :=
                      @clonePatchGo_set_preserve (k1 :: rest) shared
                        (pfx ++ [qk]) (.normal sub) v (by simp) hpfs hin qtl hq1 hq2
                    show getInPath (jsSet cur qk sub) (qk :: qtl) = getInPath cur (qk :: qtl)
                    rw [getInPath_cons, getInPath_cons, jsGet_jsSet_self hobj qk sub, hg]
                    exact hpres2
                  · show getInPath (jsSet cur k0 sub) (qk :: qtl) = getInPath cur (qk :: qtl)
                    rw [getInPath_cons, getInPath_cons, jsGet_jsSet_ne cur sub hqk]
            · rename_i w2 hin
              obtain ⟨w3, hw3, _⟩ :=
                @clonePatchGo_set_get (k1 :: rest) (shallowCloneSub shared)
                  (pfx ++ [k0]) _ v (by simp) (shallowCloneSub_objectLike hso) hin
              cases hw3
            · cases h
          · cases h
      · have hnone := jsGet_not_objectLike (by simpa using hobj) k0
        simp only [clonePatchGo, hnone] at h
        split at h
        · rename_i sub hin
          simp only [Except.ok.injEq] at h
          rw [← h]
          show getInPath (jsSet cur k0 sub) q = getInPath cur q
          rw [jsSet_not_objectLike (by simpa using hobj) k0 sub]
        · rename_i w2 hin
          obtain ⟨w3, hw3, _⟩ :=
            @clonePatchGo_set_get (k1 :: rest) (.vrecord []) (pfx ++ [k0]) _ v
              (by simp) rfl hin
          cases hw3
        · cases h

theorem clonePatchGo_del_preserve : ∀ (keys : List String) {leaf : String}
    {orig sub : StateValue} {pfx pfx2 out},
    deleteWalk orig keys pfx = .ok (some sub) →
    propFree orig = true →
    clonePatchGo orig (keys ++ [leaf]) pfx2 none = .ok out →
    ∃ w, out = .normal w ∧ ∀ q, isPathPrefixOf (keys ++ [leaf]) q = false →
      isPathPrefixOf q (keys ++ [leaf]) = false → getInPath w q = getInPath orig q
  | [], leaf, orig, sub, pfx, pfx2, out => by
      intro _ _ h
      simp only [List.nil_append, clonePatchGo] at h
      cases orig with
      | varr elems props => simp [deleteKey, Except.map] at h
      | vrecord es =>
          simp only [deleteKey, Except.map, Except.ok.injEq] at h
          refine ⟨_, h.symm, ?_⟩
          intro q hq1 hq2
          cases q with
          | nil => rw [isPathPrefixOf_nil_right] at hq1; cases hq1
          | cons qk qtl =>
              have hne : qk ≠ leaf := by
                intro he
                subst he
                simp [isPathPrefixOf] at hq2
              rw [getInPath_cons, getInPath_cons]
              have hjg : jsGet (StateValue.vrecord (eraseEntries es leaf)) qk =
                  jsGet (StateValue.vrecord es) qk := by
                simp [jsGet, lookup_eraseEntries_ne es hne]
              rw [hjg]
      | vstr s =>
          simp only [deleteKey, Except.map, Except.ok.injEq] at h
          exact ⟨_, h.symm, fun q _ _ => rfl⟩
      | vnum n =>
          simp only [deleteKey, Except.map, Except.ok.injEq] at h
          exact ⟨_, h.symm, fun q _ _ => rfl⟩
      | vbool b =>
          simp only [deleteKey, Except.map, Except.ok.injEq] at h
          exact ⟨_, h.symm, fun q _ _ => rfl⟩
      | vnull =>
          simp only [deleteKey, Except.map, Except.ok.injEq] at h
          exact ⟨_, h.symm, fun q _ _ => rfl⟩
      | vbigint n =>
          simp only [deleteKey, Except.map, Except.ok.injEq] at h
          exact ⟨_, h.symm, fun q _ _ => rfl⟩
      | vfunc id =>
          simp only [deleteKey, Except.map, Except.ok.injEq] at h
          exact ⟨_, h.symm, fun q _ _ => rfl⟩
  | k0 :: ktl, leaf, orig, sub, pfx, pfx2, out => by
      intro hwalk hpf h
      simp only [deleteWalk] at hwalk
      split at hwalk
      · simp only [Except.ok.injEq] at hwalk
        cases hwalk
      · rename_i nxt hgo
        split at hwalk
        · rename_i hno
          have hpfn : propFree nxt = true := propFree_jsGet hpf hgo
          have hobj : orig.isObjectLike = true := jsGet_some_isObjectLike hgo
          have hred : clonePatchGo orig ((k0 :: ktl) ++ [leaf]) pfx2 none =
              match clonePatchGo (shallowCloneSub nxt) (ktl ++ [leaf])
                  (pfx2 ++ [k0]) none with
              | .ok (.normal s2) => .ok (.normal (jsSet orig k0 s2))
              | .ok (.early v2) => .ok (.early v2)
              | .error e => .error e := by
            cases ktl with
            | nil =>
                simp only [List.cons_append, List.nil_append, clonePatchGo, hgo,
                  if_pos hno]
            | cons k1 ktl2 =>
                simp only [List.cons_append, clonePatchGo, hgo, if_pos hno]
                rfl
          rw [hred, shallowCloneSub_propFree_id hpfn] at h
          split at h
          · rename_i s2 hin
            obtain ⟨w2, hw2, hpres⟩ :=
              clonePatchGo_del_preserve ktl hwalk hpfn hin
            simp only [CloneOut.normal.injEq] at hw2
            subst hw2
            simp only [Except.ok.injEq] at h
            refine ⟨jsSet orig k0 s2, h.symm, ?_⟩
            intro q hq1 hq2
            cases q with
            | nil =>
                rw [List.cons_append, isPathPrefixOf_nil_right] at hq1
                cases hq1
            | cons qk qtl =>
                by_cases hqk : qk = k0
                · subst hqk
                  simp only [List.cons_append, isPathPrefixOf, beq_self_eq_true,
                    Bool.true_and] at hq1 hq2
                  rw [getInPath_cons, getInPath_cons, jsGet_jsSet_self hobj qk s2, hgo]
                  exact hpres qtl hq1 hq2
                · rw [getInPath_cons, getInPath_cons, jsGet_jsSet_ne orig s2 hqk]
          · rename_i w2 hin
            obtain ⟨w3, hw3, _⟩ := clonePatchGo_del_preserve ktl hwalk hpfn hin
            cases hw3
          · cases h
        · cases hwalk

/-! ### Off-path preservation of the mutator -/

theorem setInPath_preserve {s : StateValue} {p : List String} {v s' : StateValue}
    (hrec : s.isRecord = true) (hpf : propFree s = true)
    (h : setInPath s p (some v) = .ok s') :
    ∀ q, isPathPrefixOf p q = false → isPathPrefixOf q p = false →
      getInPath s' q = getInPath s q := by
  simp only [setInPath] at h
  split at h
  · rename_i hp
    subst hp
    intro q hq1 hq2
    rw [isPathPrefixOf_nil_right] at hq2
    cases hq2
  · rename_i hp
    split at h
    · cases h
    · rename_i subOpt hwalk
      split at h
      · cases h
      · split at h
        · simp only [Except.ok.injEq] at h
          have hs2 : s' = s := h.symm
          subst hs2
          intro q _ _
          rfl
        · simp only [deepCloneOnPath] at h
          obtain ⟨es, hes⟩ : ∃ es, s = .vrecord es := by
            cases s <;> simp [StateValue.isRecord] at hrec
            exact ⟨_, rfl⟩
          have hsp : StateValue.vrecord (spreadEntries s) = s := by rw [hes]; rfl
          rcases hcl : clonePatchGo (.vrecord (spreadEntries s)) p [] (some v)
            with e | out <;> rw [hcl] at h
          · cases h
          · rw [hsp] at hcl
            intro q hq1 hq2
            have hpres := clonePatchGo_set_preserve p v hp hpf hcl q hq1 hq2
            simp only [Except.map, Except.ok.injEq] at h
            rw [← h]
            exact hpres

theorem deleteInPath_preserve {s : StateValue} {p : List String} {s' : StateValue}
    (hrec : s.isRecord = true) (hpf : propFree s = true)
    (h : deleteInPath s p = .ok s') :
    ∀ q, isPathPrefixOf p q = false → isPathPrefixOf q p = false →
      getInPath s' q = getInPath s q := by
  simp only [deleteInPath] at h
  split at h
  · cases h
  · rename_i hp
    split at h
    · cases h
    · simp only [Except.ok.injEq] at h
      have hs2 : s' = s := h.symm
      subst hs2
      intro q _ _
      rfl
    · rename_i sub hwalk
      split at h
      · simp only [Except.ok.injEq] at h
        have hs2 : s' = s := h.symm
        subst hs2
        intro q _ _
        rfl
      · simp only [deepCloneOnPath] at h
        obtain ⟨es, hes⟩ : ∃ es, s = .vrecord es := by
          cases s <;> simp [StateValue.isRecord] at hrec
          exact ⟨_, rfl⟩
        have hsp : StateValue.vrecord (spreadEntries s) = s := by rw [hes]; rfl
        have hdec := List.dropLast_append_getLast hp
        rcases hcl : clonePatchGo (.vrecord (spreadEntries s)) p [] none
          with e | out <;> rw [hcl] at h
        · cases h
        · rw [hsp, ← hdec] at hcl
          intro q hq1 hq2
          rw [← hdec] at hq1 hq2
          obtain ⟨w, hw, hpres⟩ := clonePatchGo_del_preserve p.dropLast hwalk hpf hcl
          subst hw
          simp only [Except.map, Except.ok.injEq, CloneOut.unwrap] at h
          rw [← h]
          exact hpres q hq1 hq2

/-! ### Store-level behaviour of `_apply` -/

theorem storeApply_error_keeps_state (s : Store) (a : Action)
    (herr : ((storeApply s a).2.2).isSome = true) :
    (storeApply s a).1.rootState = s.rootState ∧ (storeApply s a).2.1 = [] := by
  by_cases hd : s.batchDepth = 0 <;>
    rcases happ : apply s.rootState a with e | r <;>
      simp [storeApply, hd, happ] at herr ⊢ <;>
        split at herr <;> simp_all <;> split at herr <;> simp_all

theorem storeApply_noop_silent (s : Store) (a : Action)
    (hd : s.batchDepth = 0) (hno : apply s.rootState a = .ok s.rootState) :
    (storeApply s a).1.rootState = s.rootState ∧ (storeApply s a).2.1 = [] := by
  have heq : StateValue.jsEqB s.rootState s.rootState = true :=
    (StateValue.jsEqB_iff _ _).mpr rfl
  simp [storeApply, hd, hno, heq]

/-! ### Lemmas: batching (`runInBatch`) -/

theorem storeApply_depth (s : Store) (a : Action) :
    (storeApply s a).1.batchDepth = s.batchDepth := by
  by_cases hd : s.batchDepth = 0 <;>
    rcases happ : apply s.rootState a with e | r
  · simp [storeApply, hd, happ]
  · by_cases hnoop :
        (StateValue.jsEqB r s.rootState || s.observers.isEmpty) = true <;>
      simp [storeApply, hd, happ, hnoop]
  · simp [storeApply, hd, happ]
  · by_cases hnoop :
        (StateValue.jsEqB r s.rootBeforeBatch || s.observers.isEmpty) = true
    · simp [storeApply, hd, happ, hnoop]
    · have hp : 0 < s.batchDepth := Nat.pos_of_ne_zero hd
      simp [storeApply, hd, happ, hnoop, hp]

theorem batchEpilogue_depth (r : Store × List NotifyEvent × Option StoreErr) :
    (batchEpilogue r).1.batchDepth = r.1.batchDepth - 1 := by
  obtain ⟨s2, evs, err⟩ := r
  simp only [batchEpilogue]
  split <;> simp

/-- Inside a still-open outer batch the epilogue only decrements the depth. -/
theorem batchEpilogue_inner (s2 : Store) (evs : List NotifyEvent)
    (err : Option StoreErr) (hd : 2 ≤ s2.batchDepth) :
    batchEpilogue (s2, evs, err) =
      ({ s2 with batchDepth := s2.batchDepth - 1 }, evs, err) := by
  simp only [batchEpilogue]
  split
  · exfalso
    rename_i hcond
    have h0 : s2.batchDepth - 1 = 0 := hcond.1
    omega
  · rfl

mutual

theorem execOp_depth : ∀ (s : Store) (op : StoreOp),
    (execOp s op).1.batchDepth = s.batchDepth
  | s, .opSet p v => storeApply_depth s (.set p v)
  | s, .opDelete p => storeApply_depth s (.delete p)
  | s, .opBatch ops => by
      show (batchEpilogue
        (execOps { s with batchDepth := s.batchDepth + 1 } ops)).1.batchDepth =
          s.batchDepth
      rw [batchEpilogue_depth, execOps_depth]
      show s.batchDepth + 1 - 1 = s.batchDepth
      omega

theorem execOps_depth : ∀ (s : Store) (ops : List StoreOp),
    (execOps s ops).1.batchDepth = s.batchDepth
  | s, [] => rfl
  | s, op :: rest => by
      simp only [execOps]
      rcases hop : execOp s op with ⟨s2, evs, err⟩
      have hd2 : s2.batchDepth = s.batchDepth := by
        have hx := execOp_depth s op
        rw [hop] at hx
        exact hx
      cases err with
      | none => simpa [execOps_depth s2 rest] using hd2
      | some e => simpa using hd2

end

theorem execOps_append (s : Store) (ops1 ops2 : List StoreOp) :
    execOps s (ops1 ++ ops2) =
      match execOps s ops1 with
      | (s1, evs, none) =>
          ((execOps s1 ops2).1, evs ++ (execOps s1 ops2).2.1, (execOps s1 ops2).2.2)
      | (s1, evs, some e) => (s1, evs, some e) := by
  induction ops1 generalizing s with
  | nil => simp [execOps]
  | cons op rest ih =>
      simp only [List.cons_append, execOps]
      rcases hop : execOp s op with ⟨s2, evs, err⟩
      cases err with
      | none =>
          simp only [List.append_eq]
          rw [ih s2]
          rcases hrest : execOps s2 rest with ⟨s3, evs3, err3⟩
          cases err3 <;> simp
      | some e => simp

/-! ### Lemmas: nested batches merge into the outermost one -/

/-- The depth-independent part of the store state. -/
def Store.core (s : Store) :
    StateValue × PTrie Channel × List Action × StateValue :=
  (s.rootState, s.observers, s.appliedBatchActions, s.rootBeforeBatch)

theorem Store.eq_of_core_eq {a b : Store} (hc : a.core = b.core)
    (hd : a.batchDepth = b.batchDepth) : a = b := by
  cases a
  cases b
  simp only [Store.core, Prod.mk.injEq] at hc
  simp_all

theorem storeApply_core_congr (s t : Store) (hc : s.core = t.core)
    (hs : 1 ≤ s.batchDepth) (ht : 1 ≤ t.batchDepth) (a : Action) :
    (storeApply s a).1.core = (storeApply t a).1.core ∧
      (storeApply s a).2.1 = (storeApply t a).2.1 ∧
      (storeApply s a).2.2 = (storeApply t a).2.2 := by
  obtain ⟨h1, h2, h3, h4⟩ : s.rootState = t.rootState ∧ s.observers = t.observers ∧
      s.appliedBatchActions = t.appliedBatchActions ∧
      s.rootBeforeBatch = t.rootBeforeBatch := by
    simpa [Store.core, Prod.mk.injEq] using hc
  have hs0 : ¬ s.batchDepth = 0 := by omega
  have ht0 : ¬ t.batchDepth = 0 := by omega
  have hsp : 0 < s.batchDepth := hs
  have htp : 0 < t.batchDepth := ht
  rcases happ : apply t.rootState a with e | r
  · simp [storeApply, hs0, ht0, h1, happ, Store.core, h2, h3, h4]
  · by_cases hnoop : (StateValue.jsEqB r t.rootBeforeBatch || t.observers.isEmpty) = true
    · simp [storeApply, hs0, ht0, h1, happ, Store.core, h2, h3, h4, hnoop]
    · simp [storeApply, hs0, ht0, h1, happ, Store.core, h2, h3, h4, hnoop, hsp, htp]

mutual

theorem execOp_core_congr : ∀ (s t : Store), s.core = t.core → 1 ≤ s.batchDepth →
    1 ≤ t.batchDepth → ∀ (op : StoreOp),
    (execOp s op).1.core = (execOp t op).1.core ∧
      (execOp s op).2.1 = (execOp t op).2.1 ∧
      (execOp s op).2.2 = (execOp t op).2.2
  | s, t, hc, hs, ht, .opSet p v => storeApply_core_congr s t hc hs ht (.set p v)
  | s, t, hc, hs, ht, .opDelete p => storeApply_core_congr s t hc hs ht (.delete p)
  | s, t, hc, hs, ht, .opBatch ops => by
      have hin := execOps_core_congr { s with batchDepth := s.batchDepth + 1 }
        { t with batchDepth := t.batchDepth + 1 } (by simpa [Store.core] using hc)
        (by show 1 ≤ s.batchDepth + 1; omega)
        (by show 1 ≤ t.batchDepth + 1; omega) ops
      show ((batchEpilogue
            (execOps { s with batchDepth := s.batchDepth + 1 } ops)).1.core =
          (batchEpilogue
            (execOps { t with batchDepth := t.batchDepth + 1 } ops)).1.core) ∧
        (batchEpilogue
            (execOps { s with batchDepth := s.batchDepth + 1 } ops)).2.1 =
          (batchEpilogue
            (execOps { t with batchDepth := t.batchDepth + 1 } ops)).2.1 ∧
        (batchEpilogue
            (execOps { s with batchDepth := s.batchDepth + 1 } ops)).2.2 =
          (batchEpilogue
            (execOps { t with batchDepth := t.batchDepth + 1 } ops)).2.2
      rcases hes : execOps { s with batchDepth := s.batchDepth + 1 } ops
        with ⟨s2, evs2, err2⟩
      rcases het : execOps { t with batchDepth := t.batchDepth + 1 } ops
        with ⟨t2, evt2, ert2⟩
      rw [hes, het] at hin
      obtain ⟨hic, hie, hir⟩ := hin
      simp only [] at hic hie hir
      have hsd : s2.batchDepth = s.batchDepth + 1 := by
        have hx := execOps_depth { s with batchDepth := s.batchDepth + 1 } ops
        rw [hes] at hx
        exact hx
      have htd : t2.batchDepth = t.batchDepth + 1 := by
        have hx := execOps_depth { t with batchDepth := t.batchDepth + 1 } ops
        rw [het] at hx
        exact hx
      rw [batchEpilogue_inner s2 evs2 err2 (by omega),
        batchEpilogue_inner t2 evt2 ert2 (by omega)]
      exact ⟨by simpa [Store.core] using hic, hie, hir⟩

theorem execOps_core_congr : ∀ (s t : Store), s.core = t.core → 1 ≤ s.batchDepth →
    1 ≤ t.batchDepth → ∀ (ops : List StoreOp),
    (execOps s ops).1.core = (execOps t ops).1.core ∧
      (execOps s ops).2.1 = (execOps t ops).2.1 ∧
      (execOps s ops).2.2 = (execOps t ops).2.2
  | s, t, hc, hs, ht, [] => ⟨hc, rfl, rfl⟩
  | s, t, hc, hs, ht, op :: rest => by
      simp only [execOps]
      have hop := execOp_core_congr s t hc hs ht op
      rcases hes : execOp s op with ⟨s2, evs2, err2⟩
      rcases het : execOp t op with ⟨t2, evt2, ert2⟩
      rw [hes, het] at hop
      obtain ⟨hic, hie, hir⟩ := hop
      simp only [] at hic hie hir
      have hsd : s2.batchDepth = s.batchDepth := by
        have hx := execOp_depth s op
        rw [hes] at hx
        exact hx
      have htd : t2.batchDepth = t.batchDepth := by
        have hx := execOp_depth t op
        rw [het] at hx
        exact hx
      subst hie
      subst hir
      cases err2 with
      | none =>
          have hrec := execOps_core_congr s2 t2 hic (by omega) (by omega) rest
          rcases hrs : execOps s2 rest with ⟨s3, evs3, err3⟩
          rcases hrt : execOps t2 rest with ⟨t3, evt3, ert3⟩
          rw [hrs, hrt] at hrec
          simpa [hrs, hrt] using hrec
      | some e => exact ⟨hic, rfl, rfl⟩

end

theorem execOp_opBatch_flat (s : Store) (hd : 1 ≤ s.batchDepth) (ops : List StoreOp) :
    execOp s (.opBatch ops) = execOps s ops := by
  show batchEpilogue (execOps { s with batchDepth := s.batchDepth + 1 } ops) =
    execOps s ops
  have hin := execOps_core_congr { s with batchDepth := s.batchDepth + 1 } s
    (by simp [Store.core]) (by show 1 ≤ s.batchDepth + 1; omega) hd ops
  rcases hes : execOps { s with batchDepth := s.batchDepth + 1 } ops
    with ⟨s2, evs2, err2⟩
  rcases het : execOps s ops with ⟨t2, evt2, ert2⟩
  rw [hes, het] at hin
  obtain ⟨hic, hie, hir⟩ := hin
  simp only [] at hic hie hir
  subst hie
  subst hir
  have hsd : s2.batchDepth = s.batchDepth + 1 := by
    have hx := execOps_depth { s with batchDepth := s.batchDepth + 1 } ops
    rw [hes] at hx
    exact hx
  have htd : t2.batchDepth = s.batchDepth := by
    have hx := execOps_depth s ops
    rw [het] at hx
    exact hx
  rw [batchEpilogue_inner s2 evs2 err2 (by omega)]
  have hst : ({ s2 with batchDepth := s2.batchDepth - 1 } : Store) = t2 :=
    Store.eq_of_core_eq (by simpa [Store.core] using hic)
      (by show s2.batchDepth - 1 = t2.batchDepth; omega)
  rw [hst]

theorem execOps_flatten (s : Store) (hd : 1 ≤ s.batchDepth)
    (ops rest : List StoreOp) :
    execOps s (.opBatch ops :: rest) = execOps s (ops ++ rest) := by
  rw [execOps_append]
  show (match execOp s (.opBatch ops) with
    | (s2, evs, none) =>
        ((execOps s2 rest).1, evs ++ (execOps s2 rest).2.1, (execOps s2 rest).2.2)
    | (s2, evs, some e) => (s2, evs, some e)) = _
  rw [execOp_opBatch_flat s hd ops]

/-! ### Lemmas: the read traversal never validates -/

theorem jsGet_arr_nonIndex (elems : List (Option StateValue))
    (props : List (String × StateValue)) {k : String}
    (h : canonicalIndex k = none) :
    jsGet (.varr elems props) k = lookupEntries props k := by
  simp [jsGet, h]

theorem jsGet_arr_oob (elems : List (Option StateValue))
    (props : List (String × StateValue)) {k : String} {i : Nat}
    (h : canonicalIndex k = some i) (hlen : elems.length ≤ i) :
    jsGet (.varr elems props) k = none := by
  simp [jsGet, h, List.getElem?_eq_none hlen]

/-! ### Lemmas: path prefixes -/

theorem isPathPrefixOf_iff : ∀ (p q : List String),
    isPathPrefixOf p q = true ↔ q <+: p
  | _, [] => by simp [isPathPrefixOf]
  | [], b :: bs => by
      simp only [isPathPrefixOf, Bool.false_eq_true, false_iff]
      intro hc
      exact absurd (List.eq_nil_of_prefix_nil hc) (by simp)
  | a :: as, b :: bs => by
      rw [List.cons_prefix_cons]
      simp only [isPathPrefixOf, Bool.and_eq_true, beq_iff_eq]
      rw [isPathPrefixOf_iff as bs]
      constructor
      · rintro ⟨h1, h2⟩
        exact ⟨h1.symm, h2⟩
      · rintro ⟨h1, h2⟩
        exact ⟨h1.symm, h2⟩

theorem prefix_antisymm {p q : List String} (h1 : p <+: q) (h2 : q <+: p) :
    p = q :=
  h1.eq_of_length (Nat.le_antisymm h1.length_le h2.length_le)

theorem selectUniquePathPrefixes_nil : selectUniquePathPrefixes [] = [] := rfl

/-! ### Lemmas: relative change paths of a detail subscriber -/

/-- The relative-path computation as the specification states it, one
uniform formula for all subscription paths: keep the touched paths at or
below `q`, strip the `q` prefix, collapse with `selectUniquePathPrefixes`. -/
def specRelativePaths (q : List String) (a : Action) : List (List String) :=
  selectUniquePathPrefixes
    (((extractPathsAsIs a).filter (fun fp => isPathPrefixOf fp q)).map
      (fun fp => fp.drop q.length))

theorem changePaths_uniform (q : List String) (a : Action) :
    changePaths q true a = specRelativePaths q a := by
  by_cases hq : 0 < q.length
  · simp [changePaths, specRelativePaths, hq]
  · have hq0 : q = [] := by
      cases q with
      | nil => rfl
      | cons x xs => exact absurd (by simp) hq
    subst hq0
    simp [changePaths, specRelativePaths, isPathPrefixOf]

theorem changePaths_ancestors_empty (q : List String) (a : Action) (det : Bool)
    (h : ∀ fp ∈ extractPathsAsIs a, fp <+: q ∧ fp ≠ q) :
    changePaths q det a = [] := by
  cases det with
  | false => rfl
  | true =>
      by_cases hq : 0 < q.length
      · have hfil : (extractPathsAsIs a).filter (fun fp => isPathPrefixOf fp q) = [] := by
          rw [List.filter_eq_nil_iff]
          intro fp hfp
          obtain ⟨hpre, hne⟩ := h fp hfp
          simp only [isPathPrefixOf_iff, Bool.not_eq_true]
          intro hc
          exact hne (prefix_antisymm hpre hc)
        simp [changePaths, hq, hfil, selectUniquePathPrefixes_nil]
      · have hq0 : q = [] := by
          cases q with
          | nil => rfl
          | cons x xs => exact absurd (by simp) hq
        subst hq0
        have hnil : extractPathsAsIs a = [] := by
          rw [List.eq_nil_iff_forall_not_mem]
          intro fp hfp
          obtain ⟨hpre, hne⟩ := h fp hfp
          exact hne (List.eq_nil_of_prefix_nil hpre)
        simp [changePaths, hnil, selectUniquePathPrefixes_nil]

/-! ### Lemmas: well-formed tries (distinct child keys) -/

mutual

/-- Distinct child keys at every node — an invariant of every trie the
store builds (JS `Map` keys are unique). -/
def PTrie.wfB {α : Type} : PTrie α → Bool
  | .node _ cs => PTrie.childrenWfB cs

/-- Each child is well-formed and its key does not recur. -/
def PTrie.childrenWfB {α : Type} : List (String × PTrie α) → Bool
  | [] => true
  | (k, t) :: rest =>
      t.wfB && !(rest.any (fun kt => kt.1 == k)) && PTrie.childrenWfB rest

end

theorem wfB_empty {α : Type} : (PTrie.empty : PTrie α).wfB = true := rfl

theorem assocLookup_none_keys {α : Type} :
    ∀ (cs : List (String × PTrie α)) {k : String}, assocLookup cs k = none →
    ∀ kt ∈ cs, kt.1 ≠ k
  | [], _, _, _, h => absurd h (List.not_mem_nil _)
  | (k0, t0) :: rest, k, hlk, kt, hmem => by
      simp only [assocLookup] at hlk
      split at hlk
      · cases hlk
      · rename_i hk0
        rcases List.mem_cons.mp hmem with h | h
        · subst h
          exact hk0
        · exact assocLookup_none_keys rest hlk kt h

theorem wfB_of_assocLookup {α : Type} :
    ∀ (cs : List (String × PTrie α)) {k : String} {t' : PTrie α},
    PTrie.childrenWfB cs = true → assocLookup cs k = some t' → t'.wfB = true
  | [], _, _, _, hlk => by cases hlk
  | (k0, t0) :: rest, k, t', hwf, hlk => by
      simp only [PTrie.childrenWfB, Bool.and_eq_true] at hwf
      simp only [assocLookup] at hlk
      split at hlk
      · cases hlk
        exact hwf.1.1
      · exact wfB_of_assocLookup rest hwf.2 hlk

theorem keys_assocSet {α : Type} :
    ∀ (cs : List (String × PTrie α)) {k : String} {t' : PTrie α} (v : PTrie α),
    assocLookup cs k = some t' →
    (assocSet cs k v).map Prod.fst = cs.map Prod.fst
  | [], _, _, _, hlk => by cases hlk
  | (k0, t0) :: rest, k, t', v, hlk => by
      simp only [assocLookup] at hlk
      simp only [assocSet]
      split at hlk
      · rename_i hk0
        rw [if_pos hk0]
        simp [hk0]
      · rename_i hk0
        rw [if_neg hk0]
        simp [keys_assocSet rest v hlk]

theorem childrenWfB_assocSet {α : Type} :
    ∀ (cs : List (String × PTrie α)) {k : String} {t' : PTrie α} {w : PTrie α},
    PTrie.childrenWfB cs = true → assocLookup cs k = some t' → w.wfB = true →
    PTrie.childrenWfB (assocSet cs k w) = true
  | [], _, _, _, _, hlk, _ => by cases hlk
  | (k0, t0) :: rest, k, t', w, hwf, hlk, hw => by
      simp only [PTrie.childrenWfB, Bool.and_eq_true] at hwf
      simp only [assocLookup] at hlk
      simp only [assocSet]
      split at hlk
      · rename_i hk0
        rw [if_pos hk0]
        simp only [PTrie.childrenWfB, Bool.and_eq_true]
        refine ⟨⟨hw, ?_⟩, hwf.2⟩
        subst hk0
        exact hwf.1.2
      · rename_i hk0
        rw [if_neg hk0]
        simp only [PTrie.childrenWfB, Bool.and_eq_true]
        refine ⟨⟨hwf.1.1, ?_⟩, childrenWfB_assocSet rest hwf.2 hlk hw⟩
        have hkeys := keys_assocSet rest w hlk
        simp only [Bool.not_eq_true'] at hwf ⊢
        rw [List.any_eq_false] at hwf ⊢
        intro kt hkt
        have : kt.1 ∈ (assocSet rest k w).map Prod.fst := List.mem_map_of_mem _ hkt
        rw [hkeys] at this
        obtain ⟨kt', hkt', hfst⟩ := List.mem_map.mp this
        rw [← hfst]
        exact hwf.1.2 kt' hkt'

theorem childrenWfB_append {α : Type} :
    ∀ (cs : List (String × PTrie α)) {k : String} {w : PTrie α},
    PTrie.childrenWfB cs = true → assocLookup cs k = none → w.wfB = true →
    PTrie.childrenWfB (cs ++ [(k, w)]) = true
  | [], k, w, _, _, hw => by
      simp [PTrie.childrenWfB, hw]
  | (k0, t0) :: rest, k, w, hwf, hlk, hw => by
      simp only [PTrie.childrenWfB, Bool.and_eq_true] at hwf
      simp only [assocLookup] at hlk
      split at hlk
      · cases hlk
      · rename_i hk0
        simp only [List.cons_append, PTrie.childrenWfB, Bool.and_eq_true]
        refine ⟨⟨hwf.1.1, ?_⟩, childrenWfB_append rest hwf.2 hlk hw⟩
        simp only [Bool.not_eq_true'] at hwf ⊢
        rw [List.any_eq_false] at hwf ⊢
        intro kt hkt
        rcases List.mem_append.mp hkt with h | h
        · exact hwf.1.2 kt h
        · simp only [List.mem_singleton] at h
          subst h
          have hkk : ¬ (k = k0) := fun hc => hk0 hc.symm
          simp [hkk]

theorem wfB_fillPath {α : Type} :
    ∀ (p : List String) (t : PTrie α) (a : α), t.wfB = true →
    (t.fillPath p a).wfB = true
  | [], .node v cs, a, hwf => hwf
  | k :: rest, .node v cs, a, hwf => by
      simp only [PTrie.fillPath]
      rcases hlk : assocLookup cs k with _ | t'
      · simp only [PTrie.wfB]
        exact childrenWfB_append cs hwf hlk (wfB_fillPath rest PTrie.empty a wfB_empty)
      · simp only [PTrie.wfB]
        exact childrenWfB_assocSet cs hwf hlk
          (wfB_fillPath rest t' a (wfB_of_assocLookup cs hwf hlk))

theorem wfB_foldl_fillPath {α : Type} :
    ∀ (ps : List (List String)) (t : PTrie α) (a : α), t.wfB = true →
    (ps.foldl (fun t p => t.fillPath p a) t).wfB = true
  | [], t, a, hwf => hwf
  | p :: rest, t, a, hwf =>
      wfB_foldl_fillPath rest (t.fillPath p a) a (wfB_fillPath p t a hwf)

/-! ### Lemmas: pre-order traversal lists ancestors before descendants -/

theorem sameLengthPrefix {α : Type} {a b x : List α} (ha : a <+: x)
    (hb : b <+: x) (hlen : a.length = b.length) : a = b := by
  obtain ⟨ra, hra⟩ := ha
  obtain ⟨rb, hrb⟩ := hb
  have hx : a ++ ra = b ++ rb := by rw [hra, hrb]
  exact (List.append_inj hx hlen).1

mutual

theorem preorder_prefix {α : Type} : ∀ (t : PTrie α) (pre x : List String),
    x ∈ (t.preorder pre).map Prod.fst → pre <+: x
  | .node v cs, pre, x, hx => by
      simp only [PTrie.preorder, List.map_cons, List.mem_cons] at hx
      rcases hx with h | h
      · subst h
        exact List.prefix_refl _
      · obtain ⟨k, t', _, hpre, _⟩ := childrenPreorder_prefix cs pre x h
        exact List.IsPrefix.trans ⟨[k], rfl⟩ hpre

theorem childrenPreorder_prefix {α : Type} :
    ∀ (cs : List (String × PTrie α)) (pre x : List String),
    x ∈ (PTrie.childrenPreorder cs pre).map Prod.fst →
    ∃ k t', (k, t') ∈ cs ∧ (pre ++ [k]) <+: x ∧
      x ∈ (t'.preorder (pre ++ [k])).map Prod.fst
  | [], pre, x, hx => by simp [PTrie.childrenPreorder] at hx
  | (k0, t0) :: rest, pre, x, hx => by
      simp only [PTrie.childrenPreorder, List.map_append, List.mem_append] at hx
      rcases hx with h | h
      · exact ⟨k0, t0, List.mem_cons_self _ _,
          preorder_prefix t0 (pre ++ [k0]) x h, h⟩
      · obtain ⟨k, t', hmem, hpre, hmem2⟩ := childrenPreorder_prefix rest pre x h
        exact ⟨k, t', List.mem_cons_of_mem _ hmem, hpre, hmem2⟩

end

theorem key_eq_of_prefix {pre x : List String} {k1 k2 : String}
    (h1 : (pre ++ [k1]) <+: x) (h2 : (pre ++ [k2]) <+: x) : k1 = k2 := by
  have := sameLengthPrefix h1 h2 (by simp)
  have := List.append_cancel_left this
  simpa using this

mutual

theorem preorder_pair_sublist {α : Type} :
    ∀ (t : PTrie α) (pre p q : List String),
    t.wfB = true → p ≠ q → p <+: q →
    p ∈ (t.preorder pre).map Prod.fst → q ∈ (t.preorder pre).map Prod.fst →
    List.Sublist [p, q] ((t.preorder pre).map Prod.fst)
  | .node v cs, pre, p, q, hwf, hne, hpq, hp, hq => by
      simp only [PTrie.preorder, List.map_cons, List.mem_cons] at hp hq ⊢
      by_cases hppre : p = pre
      · have hqc : q ∈ (PTrie.childrenPreorder cs pre).map Prod.fst := by
          rcases hq with h | h
          · rw [hppre] at hne
            exact absurd h.symm hne
          · exact h
        rw [hppre]
        exact List.Sublist.cons₂ pre (List.singleton_sublist.mpr hqc)
      · have hpc : p ∈ (PTrie.childrenPreorder cs pre).map Prod.fst := by
          rcases hp with h | h
          · exact absurd h hppre
          · exact h
        have hqc : q ∈ (PTrie.childrenPreorder cs pre).map Prod.fst := by
          rcases hq with h | h
          · exfalso
            obtain ⟨k, t', _, hpre2, _⟩ := childrenPreorder_prefix cs pre p hpc
            have hprep : pre <+: p := List.IsPrefix.trans ⟨[k], rfl⟩ hpre2
            have hppre2 : p <+: pre := h ▸ hpq
            exact hppre (prefix_antisymm hppre2 hprep)
          · exact h
        exact List.Sublist.cons _
          (childrenPreorder_pair_sublist cs pre p q hwf hne hpq hpc hqc)

theorem childrenPreorder_pair_sublist {α : Type} :
    ∀ (cs : List (String × PTrie α)) (pre p q : List String),
    PTrie.childrenWfB cs = true → p ≠ q → p <+: q →
    p ∈ (PTrie.childrenPreorder cs pre).map Prod.fst →
    q ∈ (PTrie.childrenPreorder cs pre).map Prod.fst →
    List.Sublist [p, q] ((PTrie.childrenPreorder cs pre).map Prod.fst)
  | [], pre, p, q, _, _, _, hp, _ => by simp [PTrie.childrenPreorder] at hp
  | (k0, t0) :: rest, pre, p, q, hwf, hne, hpq, hp, hq => by
      simp only [PTrie.childrenWfB, Bool.and_eq_true] at hwf
      simp only [PTrie.childrenPreorder, List.map_append, List.mem_append]
        at hp hq ⊢
      rcases hp with hpL | hpR
      · have hpreP : (pre ++ [k0]) <+: p := preorder_prefix t0 (pre ++ [k0]) p hpL
        have hqL : q ∈ (t0.preorder (pre ++ [k0])).map Prod.fst := by
          rcases hq with h | h
          · exact h
          · exfalso
            obtain ⟨k, t', hmem, hpreQ, _⟩ := childrenPreorder_prefix rest pre q h
            have hpreQ0 : (pre ++ [k0]) <+: q := hpreP.trans hpq
            have hkk : k = k0 := key_eq_of_prefix hpreQ hpreQ0
            subst hkk
            have hfresh := hwf.1.2
            simp only [Bool.not_eq_true'] at hfresh
            rw [List.any_eq_false] at hfresh
            have hc := hfresh (k, t') hmem
            simp at hc
        exact List.Sublist.trans
          (preorder_pair_sublist t0 (pre ++ [k0]) p q hwf.1.1 hne hpq hpL hqL)
          (List.sublist_append_left _ _)
      · have hqR : q ∈ (PTrie.childrenPreorder rest pre).map Prod.fst := by
          rcases hq with h | h
          · exfalso
            obtain ⟨k, t', hmem, hpreP, _⟩ := childrenPreorder_prefix rest pre p hpR
            have hpreQ : (pre ++ [k]) <+: q := hpreP.trans hpq
            have hpreQ0 : (pre ++ [k0]) <+: q := preorder_prefix t0 (pre ++ [k0]) q h
            have hkk : k = k0 := key_eq_of_prefix hpreQ hpreQ0
            subst hkk
            have hfresh := hwf.1.2
            simp only [Bool.not_eq_true'] at hfresh
            rw [List.any_eq_false] at hfresh
            have hc := hfresh (k, t') hmem
            simp at hc
          · exact h
        exact List.Sublist.trans
          (childrenPreorder_pair_sublist rest pre p q hwf.2 hne hpq hpR hqR)
          (List.sublist_append_right _ _)

end

/-! ### Lemmas: filtering a list keeps the relative order of survivors -/

theorem mem_filterMap_of_mem_map {γ β : Type} [DecidableEq β] {K : List γ}
    {f : γ → β} {g : γ → Option β} {q : β} (hq : q ∈ K.map f)
    (hg : ∀ x ∈ K, f x = q → g x = some q) : q ∈ K.filterMap g := by
  obtain ⟨y, hy, hfy⟩ := List.mem_map.mp hq
  exact List.mem_filterMap.mpr ⟨y, hy, hg y hy hfy⟩

theorem pair_sublist_filterMap {γ β : Type} [DecidableEq β] :
    ∀ (K : List γ) (f : γ → β) (g : γ → Option β) (p q : β),
    List.Sublist [p, q] (K.map f) →
    (∀ x ∈ K, f x = p → g x = some p) →
    (∀ x ∈ K, f x = q → g x = some q) →
    List.Sublist [p, q] (K.filterMap g)
  | [], f, g, p, q, hsub, _, _ => by simp at hsub
  | x :: K2, f, g, p, q, hsub, hgp, hgq => by
      simp only [List.map_cons] at hsub
      cases hsub with
      | cons _ hsub2 =>
          have ih := pair_sublist_filterMap K2 f g p q hsub2
            (fun y hy => hgp y (List.mem_cons_of_mem _ hy))
            (fun y hy => hgq y (List.mem_cons_of_mem _ hy))
          rw [List.filterMap_cons]
          rcases g x with _ | b
          · exact ih
          · exact List.Sublist.cons b ih
      | cons₂ a hsub2 =>
          have hgx : g x = some (f x) := hgp x (List.mem_cons_self _ _) rfl
          rw [List.filterMap_cons, hgx]
          refine List.Sublist.cons₂ _ (List.singleton_sublist.mpr ?_)
          exact mem_filterMap_of_mem_map (List.singleton_sublist.mp hsub2)
            (fun y hy => hgq y (List.mem_cons_of_mem _ hy))

/-! ### The notification pipeline walks the scratch trie top-down -/

/-- The scratch update trie `_notify` builds via `fillPath` before the
pre-order walk. -/
def notifyTrie (obs : PTrie Channel) (action : Action) : PTrie Bool :=
  (selectUniquePaths (extractPathsSorted action ++
      selectChildPathsWithObservers obs (extractPathsSorted action))).foldl
    (fun t p => t.fillPath p true) PTrie.empty

/-- The event-path projection of a visited node: kept exactly when a
channel exists at the path. -/
def pathKeep (obs : PTrie Channel) (pv : List String × Option Bool) :
    Option (List String) :=
  match obs.get pv.1 with
  | none => none
  | some _ => some pv.1

theorem notifyTrie_wf (obs : PTrie Channel) (action : Action) :
    (notifyTrie obs action).wfB = true :=
  wfB_foldl_fillPath _ PTrie.empty true wfB_empty

theorem notifyEvents_map_path (obs : PTrie Channel) (before after : StateValue)
    (action : Action) :
    (notifyEvents obs before after action).map NotifyEvent.path =
      ((notifyTrie obs action).preorder []).filterMap (pathKeep obs) := by
  show (((notifyTrie obs action).preorder []).filterMap _).map NotifyEvent.path = _
  rw [List.map_filterMap]
  apply List.filterMap_congr
  intro pv _
  rcases hch : obs.get pv.1 with _ | ch <;> simp [pathKeep, hch]

theorem mem_path_isSome {obs : PTrie Channel} {K : List (List String × Option Bool)}
    {p : List String} (hp : p ∈ K.filterMap (pathKeep obs)) :
    p ∈ K.map Prod.fst ∧ (obs.get p).isSome = true := by
  obtain ⟨pv, hpv, hg⟩ := List.mem_filterMap.mp hp
  simp only [pathKeep] at hg
  rcases hch : obs.get pv.1 with _ | ch
  · rw [hch] at hg
    cases hg
  · rw [hch] at hg
    cases hg
    exact ⟨List.mem_map_of_mem _ hpv, by rw [hch]; rfl⟩

theorem notifyEvents_topdown (obs : PTrie Channel) (before after : StateValue)
    (action : Action) (p q : List String) (hne : p ≠ q) (hpre : p <+: q)
    (hp : p ∈ (notifyEvents obs before after action).map NotifyEvent.path)
    (hq : q ∈ (notifyEvents obs before after action).map NotifyEvent.path) :
    List.Sublist [p, q] ((notifyEvents obs before after action).map NotifyEvent.path) := by
  rw [notifyEvents_map_path] at hp hq ⊢
  obtain ⟨hpm, hpc⟩ := mem_path_isSome hp
  obtain ⟨hqm, hqc⟩ := mem_path_isSome hq
  apply pair_sublist_filterMap
  · exact preorder_pair_sublist _ [] p q (notifyTrie_wf obs action) hne hpre hpm hqm
  · intro x _ hx
    simp only [pathKeep, hx]
    rcases hch : obs.get p with _ | ch
    · rw [hch] at hpc
      cases hpc
    · rfl
  · intro x _ hx
    simp only [pathKeep, hx]
    rcases hch : obs.get q with _ | ch
    · rw [hch] at hqc
      cases hqc
    · rfl

/-! ### Lemmas: the path comparator is a total preorder -/

theorem strCmp_eq_iff (a b : String) : strCmp a b = .eq ↔ a = b := by
  rw [strCmp, strCmpL_eq_iff]
  constructor
  · intro h
    cases a
    cases b
    simp_all [String.toList]
  · intro h
    rw [h]

theorem strCmp_swap (a b : String) : (strCmp a b).swap = strCmp b a :=
  strCmpL_swap _ _

theorem strCmp_lt_trans {a b c : String} (h1 : strCmp a b = .lt)
    (h2 : strCmp b c = .lt) : strCmp a c = .lt :=
  strCmpL_lt_trans h1 h2

theorem pathCmp_eq_iff : ∀ (p q : List String), pathCmp p q = .eq ↔ p = q
  | [], [] => by simp [pathCmp]
  | [], _ :: _ => by simp [pathCmp]
  | _ :: _, [] => by simp [pathCmp]
  | a :: as, b :: bs => by
      simp only [pathCmp]
      rcases hab : strCmp a b with _ | _ | _
      · simp only [List.cons.injEq]
        constructor
        · intro h
          cases h
        · rintro ⟨h1, _⟩
          rw [h1, (strCmp_eq_iff b b).mpr rfl] at hab
          cases hab
      · rw [pathCmp_eq_iff as bs]
        have hb : a = b := (strCmp_eq_iff a b).mp hab
        subst hb
        simp
      · simp only [List.cons.injEq]
        constructor
        · intro h
          cases h
        · rintro ⟨h1, _⟩
          rw [h1, (strCmp_eq_iff b b).mpr rfl] at hab
          cases hab

theorem pathCmp_swap : ∀ (p q : List String), (pathCmp p q).swap = pathCmp q p
  | [], [] => rfl
  | [], _ :: _ => rfl
  | _ :: _, [] => rfl
  | a :: as, b :: bs => by
      simp only [pathCmp]
      rcases hab : strCmp a b with _ | _ | _ <;>
        rw [← strCmp_swap a b, hab]
      · rfl
      · exact pathCmp_swap as bs
      · rfl

theorem pathCmp_lt_trans : ∀ {p q r : List String}, pathCmp p q = .lt →
    pathCmp q r = .lt → pathCmp p r = .lt
  | [], [], _, h1, _ => by cases h1
  | [], _ :: _, [], _, h2 => by cases h2
  | [], _ :: _, _ :: _, _, _ => rfl
  | _ :: _, [], _, h1, _ => by cases h1
  | _ :: _, _ :: _, [], _, h2 => by cases h2
  | a :: as, b :: bs, c :: cs, h1, h2 => by
      simp only [pathCmp] at h1 h2 ⊢
      rcases hab : strCmp a b with _ | _ | _ <;> rw [hab] at h1 <;>
        simp only [] at h1
      · rcases hbc : strCmp b c with _ | _ | _ <;> rw [hbc] at h2 <;>
          simp only [] at h2
        · rw [strCmp_lt_trans hab hbc]
        · have hb : b = c := (strCmp_eq_iff b c).mp hbc
          subst hb
          rw [hab]
        · cases h2
      · have hb : a = b := (strCmp_eq_iff a b).mp hab
        subst hb
        rcases hbc : strCmp a c with _ | _ | _
        · rfl
        · rw [hbc] at h2
          simp only [] at h2
          exact pathCmp_lt_trans h1 h2
        · rw [hbc] at h2
          simp only [] at h2
          cases h2
      · cases h1

theorem pathLe_refl (p : List String) : pathLe p p := by
  intro h
  rw [(pathCmp_eq_iff p p).mpr rfl] at h
  cases h

instance : IsTotal (List String) pathLe :=
  ⟨fun p q => by
    rcases h : pathCmp p q with _ | _ | _
    · exact Or.inl (by intro hc; rw [h] at hc; cases hc)
    · exact Or.inl (by intro hc; rw [h] at hc; cases hc)
    · refine Or.inr (by intro hc; rw [← pathCmp_swap p q, h] at hc; cases hc)⟩

instance : IsTrans (List String) pathLe :=
  ⟨fun p q r h1 h2 => by
    intro hc
    rcases hpq : pathCmp p q with _ | _ | _
    · rcases hqr : pathCmp q r with _ | _ | _
      · rw [pathCmp_lt_trans hpq hqr] at hc
        cases hc
      · have hb : q = r := (pathCmp_eq_iff q r).mp hqr
        subst hb
        rw [hpq] at hc
        cases hc
      · exact h2 hqr
    · have hb : p = q := (pathCmp_eq_iff p q).mp hpq
      subst hb
      exact h2 hc
    · exact h1 hpq⟩

theorem prefix_pathCmp_lt : ∀ (p q : List String), p <+: q → p ≠ q →
    pathCmp p q = .lt
  | [], [], _, hne => absurd rfl hne
  | [], _ :: _, _, _ => rfl
  | a :: as, [], hpre, _ => by
      exact absurd (List.eq_nil_of_prefix_nil hpre) (by simp)
  | a :: as, b :: bs, hpre, hne => by
      obtain ⟨hab, hpre2⟩ := List.cons_prefix_cons.mp hpre
      subst hab
      simp only [pathCmp, (strCmp_eq_iff a a).mpr rfl]
      exact prefix_pathCmp_lt as bs hpre2 (by intro h; exact hne (by rw [h]))

theorem prefix_between : ∀ (p h y : List String), pathLe p h → pathLe h y →
    p <+: y → p <+: h
  | [], h, y, _, _, _ => List.nil_prefix
  | a :: p2, [], y, hph, _, _ => by
      exact absurd rfl hph
  | a :: p2, b :: h2, y, hph, hhy, hpy => by
      obtain ⟨y2, hab, hy2, hpre2⟩ :
          ∃ y2, y = a :: y2 ∧ p2 <+: y2 ∧ True := by
        rcases hpy with ⟨t, ht⟩
        exact ⟨p2 ++ t, by simpa using ht.symm, ⟨t, rfl⟩, trivial⟩
      subst hab
      have hab : a = b := by
        rcases hab2 : strCmp a b with _ | _ | _
        · exfalso
          have hba : strCmp b a = .gt := by
            rw [← strCmp_swap a b, hab2]
            rfl
          simp only [pathLe, pathCmp, hba] at hhy
          exact hhy rfl
        · exact (strCmp_eq_iff a b).mp hab2
        · exfalso
          simp only [pathLe, pathCmp, hab2] at hph
          exact hph rfl
      subst hab
      have hph2 : pathLe p2 h2 := by
        simp only [pathLe, pathCmp, (strCmp_eq_iff a a).mpr rfl] at hph
        exact hph
      have hhy2 : pathLe h2 y2 := by
        simp only [pathLe, pathCmp, (strCmp_eq_iff a a).mpr rfl] at hhy
        exact hhy
      exact List.cons_prefix_cons.mpr ⟨rfl, prefix_between p2 h2 y2 hph2 hhy2 hy2⟩

theorem sortPaths_sorted (paths : List (List String)) :
    (sortPaths paths).Sorted pathLe :=
  List.sorted_insertionSort pathLe paths

theorem sortPaths_perm (paths : List (List String)) :
    (sortPaths paths).Perm paths :=
  List.perm_insertionSort pathLe paths

/-! ### Lemmas: the dedup marking loop on a sorted array -/

theorem filterMap_id_replicate_none {β : Type} :
    ∀ n : Nat, (List.replicate n (none : Option β)).filterMap id = []
  | 0 => rfl
  | n + 1 => by simp [List.replicate_succ, List.filterMap_cons,
      filterMap_id_replicate_none n]

theorem markPass_no_match (test : List String → List String → Bool)
    (par : List String) :
    ∀ (l : List (List String)), (∀ x ∈ l, test par x = false) →
    markPass test par (l.map some) = (l.map some, 0)
  | [], _ => rfl
  | x :: rest, h => by
      simp only [List.map_cons, markPass, h x (List.mem_cons_self _ _)]
      rw [markPass_no_match test par rest
        (fun y hy => h y (List.mem_cons_of_mem _ hy))]
      simp

theorem markPass_run (test : List String → List String → Bool)
    (par : List String) :
    ∀ (run tail : List (List String)),
    (∀ x ∈ run, test par x = true) → (∀ x ∈ tail, test par x = false) →
    markPass test par ((run ++ tail).map some) =
      (List.replicate run.length none ++ tail.map some, run.length)
  | [], tail, _, htail => by
      simpa using markPass_no_match test par tail htail
  | x :: run2, tail, hrun, htail => by
      simp only [List.cons_append, List.map_cons, markPass,
        hrun x (List.mem_cons_self _ _), List.append_eq]
      rw [markPass_run test par run2 tail
        (fun y hy => hrun y (List.mem_cons_of_mem _ hy)) htail]
      simp [List.replicate_succ]

/-- The greedy form of the dedup loop on a sorted list: keep the head,
skip its (contiguous) descendants, continue. -/
def greedyFuel : Nat → List (List String) → List (List String)
  | 0, l => l
  | _ + 1, [] => []
  | fuel + 1, p :: rest =>
      p :: greedyFuel fuel (rest.dropWhile (fun x => isPathPrefixOf x p))

theorem greedyFuel_nil : ∀ fuel, greedyFuel fuel [] = []
  | 0 => rfl
  | _ + 1 => rfl

/-- In a sorted list, every extension of the head is contiguous right
after it: nothing after the first non-extension extends the head. -/
theorem tail_no_extension : ∀ {p : List String} {rest : List (List String)},
    (p :: rest).Sorted pathLe →
    ∀ x ∈ rest.dropWhile (fun y => isPathPrefixOf y p), isPathPrefixOf x p = false
  | p, [], _, x, hx => by simp [List.dropWhile] at hx
  | p, r :: rest2, hsort, x, hx => by
      rw [List.dropWhile_cons] at hx
      by_cases hr : isPathPrefixOf r p = true
      · rw [if_pos hr] at hx
        have hsub : List.Sublist (p :: rest2) (p :: r :: rest2) :=
          List.Sublist.cons₂ _ (List.sublist_cons_self _ _)
        exact tail_no_extension (hsort.sublist hsub) x hx
      · rw [if_neg hr] at hx
        rcases List.mem_cons.mp hx with h | h
        · subst h
          exact Bool.not_eq_true _ ▸ (by simpa using hr)
        · by_contra hc
          have hpx : p <+: x := (isPathPrefixOf_iff x p).mp (by simpa using hc)
          have hsc := List.sorted_cons.mp hsort
          have hpr : pathLe p r := hsc.1 r (List.mem_cons_self _ _)
          have hsc2 := List.sorted_cons.mp hsc.2
          have hrx : pathLe r x := hsc2.1 x h
          have hprefr : p <+: r := prefix_between p r x hpr hrx hpx
          exact hr ((isPathPrefixOf_iff r p).mpr hprefr)

theorem markOuterFuel_cons (test : List String → List String → Bool)
    (fuel : Nat) (parent : List String) (y : Option (List String))
    (rest : List (Option (List String))) :
    markOuterFuel test (fuel + 1) (some parent :: y :: rest) =
      some parent ::
        ((markPass test parent (y :: rest)).1.take
            (markPass test parent (y :: rest)).2 ++
          markOuterFuel test fuel
            ((markPass test parent (y :: rest)).1.drop
              (markPass test parent (y :: rest)).2)) := rfl

theorem markOuterFuel_eq_greedy :
    ∀ (fuel : Nat) (l : List (List String)), l.Sorted pathLe →
    l.length ≤ fuel →
    (markOuterFuel (fun parent child => isPathPrefixOf child parent) fuel
        (l.map some)).filterMap id = greedyFuel fuel l
  | 0, [], _, _ => rfl
  | 0, p :: rest, _, hlen => absurd hlen (by simp)
  | fuel + 1, [], _, _ => rfl
  | fuel + 1, [p], _, _ => by
      simp [markOuterFuel, greedyFuel, greedyFuel_nil, List.filterMap_cons]
  | fuel + 1, p :: r :: rest2, hsort, hlen => by
      have hsplit : (r :: rest2).takeWhile (fun y => isPathPrefixOf y p) ++
          (r :: rest2).dropWhile (fun y => isPathPrefixOf y p) = r :: rest2 :=
        List.takeWhile_append_dropWhile _ _
      have hrun : ∀ x ∈ (r :: rest2).takeWhile (fun y => isPathPrefixOf y p),
          isPathPrefixOf x p = true := fun x hx => by
        simpa using List.mem_takeWhile_imp hx
      have htail : ∀ x ∈ (r :: rest2).dropWhile (fun y => isPathPrefixOf y p),
          isPathPrefixOf x p = false := tail_no_extension hsort
      have hmark := markPass_run (fun parent child => isPathPrefixOf child parent) p
        ((r :: rest2).takeWhile (fun y => isPathPrefixOf y p))
        ((r :: rest2).dropWhile (fun y => isPathPrefixOf y p)) hrun htail
      rw [hsplit] at hmark
      have hmap : (p :: r :: rest2).map (some : List String → Option (List String)) =
          some p :: some r :: rest2.map some := rfl
      rw [hmap, markOuterFuel_cons]
      have hmap2 : (some r :: rest2.map some) = (r :: rest2).map some := rfl
      rw [hmap2, hmark]
      have htake : (List.replicate
            ((r :: rest2).takeWhile (fun y => isPathPrefixOf y p)).length
            (none : Option (List String)) ++
          ((r :: rest2).dropWhile (fun y => isPathPrefixOf y p)).map some).take
            ((r :: rest2).takeWhile (fun y => isPathPrefixOf y p)).length =
          List.replicate
            ((r :: rest2).takeWhile (fun y => isPathPrefixOf y p)).length none :=
        List.take_left' (by simp)
      have hdrop : (List.replicate
            ((r :: rest2).takeWhile (fun y => isPathPrefixOf y p)).length
            (none : Option (List String)) ++
          ((r :: rest2).dropWhile (fun y => isPathPrefixOf y p)).map some).drop
            ((r :: rest2).takeWhile (fun y => isPathPrefixOf y p)).length =
          ((r :: rest2).dropWhile (fun y => isPathPrefixOf y p)).map some :=
        List.drop_left' (by simp)
      rw [htake, hdrop]
      have hsort2 : ((r :: rest2).dropWhile
          (fun y => isPathPrefixOf y p)).Sorted pathLe :=
        ((List.sorted_cons.mp hsort).2).sublist (List.dropWhile_sublist _)
      have hlen2 : ((r :: rest2).dropWhile
          (fun y => isPathPrefixOf y p)).length ≤ fuel := by
        have hsub : List.Sublist
            ((r :: rest2).dropWhile (fun y => isPathPrefixOf y p)) (r :: rest2) :=
          List.dropWhile_sublist _
        have h1 := hsub.length_le
        simp only [List.length_cons] at hlen h1 ⊢
        omega
      simp only [List.filterMap_cons, id_eq, List.filterMap_append,
        filterMap_id_replicate_none,
        markOuterFuel_eq_greedy fuel _ hsort2 hlen2]
      simp [greedyFuel]

theorem greedyFuel_subset : ∀ (fuel : Nat) (l : List (List String)),
    ∀ x ∈ greedyFuel fuel l, x ∈ l
  | 0, l, x, hx => hx
  | _ + 1, [], x, hx => hx
  | fuel + 1, p :: rest, x, hx => by
      simp only [greedyFuel, List.mem_cons] at hx
      rcases hx with h | h
      · exact h ▸ List.mem_cons_self _ _
      · have hx2 := greedyFuel_subset fuel _ x h
        have hsub : List.Sublist
            (rest.dropWhile (fun y => isPathPrefixOf y p)) rest :=
          List.dropWhile_sublist _
        exact List.mem_cons_of_mem _ (hsub.subset hx2)

theorem greedyFuel_mem : ∀ (fuel : Nat) (l : List (List String)),
    l.Sorted pathLe → l.length ≤ fuel → ∀ x,
    (x ∈ greedyFuel fuel l ↔ (x ∈ l ∧ ∀ r ∈ l, r <+: x → r = x))
  | 0, [], _, _, x => by simp [greedyFuel]
  | 0, p :: rest, _, hlen, x => absurd hlen (by simp)
  | fuel + 1, [], _, _, x => by simp [greedyFuel]
  | fuel + 1, p :: rest, hsort, hlen, x => by
      have hmin : ∀ y ∈ rest, pathLe p y := (List.sorted_cons.mp hsort).1
      have htail : ∀ y ∈ rest.dropWhile (fun z => isPathPrefixOf z p),
          isPathPrefixOf y p = false := tail_no_extension hsort
      have hsplitm : ∀ y ∈ rest,
          y ∈ rest.takeWhile (fun z => isPathPrefixOf z p) ∨
          y ∈ rest.dropWhile (fun z => isPathPrefixOf z p) := by
        intro y hy
        rw [← List.takeWhile_append_dropWhile
          (fun z => isPathPrefixOf z p) rest] at hy
        exact List.mem_append.mp hy
      have hsort2 : (rest.dropWhile (fun z => isPathPrefixOf z p)).Sorted pathLe :=
        ((List.sorted_cons.mp hsort).2).sublist (List.dropWhile_sublist _)
      have hlen2 : (rest.dropWhile (fun z => isPathPrefixOf z p)).length ≤ fuel := by
        have h1 := (List.dropWhile_sublist
          (fun z => isPathPrefixOf z p) : List.Sublist _ rest).length_le
        simp only [List.length_cons] at hlen
        omega
      have ih := greedyFuel_mem fuel _ hsort2 hlen2
      simp only [greedyFuel, List.mem_cons]
      constructor
      · rintro (hxp | hxg)
        · subst hxp
          refine ⟨Or.inl rfl, ?_⟩
          intro r hr hrx
          rcases hr with h | h
          · exact h
          · by_contra hne
            have hlt : pathCmp r x = .lt := prefix_pathCmp_lt r x hrx hne
            have hgt : pathCmp x r = .gt := by
              rw [← pathCmp_swap r x, hlt]
              rfl
            exact hmin r h hgt
        · obtain ⟨hxt, hprop⟩ := (ih x).mp hxg
          have hnx : isPathPrefixOf x p = false := htail x hxt
          have hsubt : List.Sublist
              (rest.dropWhile (fun z => isPathPrefixOf z p)) rest :=
            List.dropWhile_sublist _
          refine ⟨Or.inr (hsubt.subset hxt), ?_⟩
          intro r hr hrx
          rcases hr with h | h
          · subst h
            exfalso
            have hnx2 : ¬ r <+: x := fun hc => by
              rw [(isPathPrefixOf_iff x r).mpr hc] at hnx
              cases hnx
            exact hnx2 hrx
          · rcases hsplitm r h with hrun | htl
            · exfalso
              have hpr : p <+: r := (isPathPrefixOf_iff r p).mp
                (by simpa using List.mem_takeWhile_imp hrun)
              have hpx : p <+: x := hpr.trans hrx
              have hnx2 : ¬ p <+: x := fun hc => by
                rw [(isPathPrefixOf_iff x p).mpr hc] at hnx
                cases hnx
              exact hnx2 hpx
            · exact hprop r htl hrx
      · rintro ⟨hx, hprop⟩
        rcases hx with hxp | hxr
        · exact Or.inl hxp
        · rcases hsplitm x hxr with hrun | htl
          · have hpx : p <+: x := (isPathPrefixOf_iff x p).mp
              (by simpa using List.mem_takeWhile_imp hrun)
            exact Or.inl (hprop p (Or.inl rfl) hpx).symm
          · refine Or.inr ((ih x).mpr ⟨htl, ?_⟩)
            intro r hr hrx
            have hsubt : List.Sublist
                (rest.dropWhile (fun z => isPathPrefixOf z p)) rest :=
              List.dropWhile_sublist _
            exact hprop r (Or.inr (hsubt.subset hr)) hrx

theorem greedyFuel_nodup : ∀ (fuel : Nat) (l : List (List String)),
    l.Sorted pathLe → l.length ≤ fuel → (greedyFuel fuel l).Nodup
  | 0, [], _, _ => List.nodup_nil
  | 0, p :: rest, _, hlen => absurd hlen (by simp)
  | fuel + 1, [], _, _ => List.nodup_nil
  | fuel + 1, p :: rest, hsort, hlen => by
      have htail : ∀ y ∈ rest.dropWhile (fun z => isPathPrefixOf z p),
          isPathPrefixOf y p = false := tail_no_extension hsort
      have hsort2 : (rest.dropWhile (fun z => isPathPrefixOf z p)).Sorted pathLe :=
        ((List.sorted_cons.mp hsort).2).sublist (List.dropWhile_sublist _)
      have hlen2 : (rest.dropWhile (fun z => isPathPrefixOf z p)).length ≤ fuel := by
        have h1 := (List.dropWhile_sublist
          (fun z => isPathPrefixOf z p) : List.Sublist _ rest).length_le
        simp only [List.length_cons] at hlen
        omega
      simp only [greedyFuel, List.nodup_cons]
      refine ⟨?_, greedyFuel_nodup fuel _ hsort2 hlen2⟩
      intro hp
      have hpt := greedyFuel_subset fuel _ p hp
      have := htail p hpt
      rw [(isPathPrefixOf_iff p p).mpr (List.prefix_refl p)] at this
      cases this

/-! ### The dedup-prefixes characterization -/

theorem selectUniquePathPrefixes_eq_greedy (paths : List (List String))
    (h1 : paths.length ≠ 1) (h2 : [] ∉ paths) :
    selectUniquePathPrefixes paths =
      greedyFuel (sortPaths paths).length (sortPaths paths) := by
  have hb1 : (paths.length == 1) = false := by simpa using h1
  have hb2 : (paths.any fun p => p.length == 0) = false := by
    rw [List.any_eq_false]
    intro p hp hc
    have hp0 : p = [] := by
      simpa [List.length_eq_zero] using hc
    subst hp0
    exact h2 hp
  simp only [selectUniquePathPrefixes, hb1, hb2, Bool.false_eq_true, if_false]
  show (markOuterFuel _ ((sortPaths paths).map some).length _).filterMap id = _
  rw [List.length_map]
  exact markOuterFuel_eq_greedy _ _ (sortPaths_sorted paths) (Nat.le_refl _)

theorem selectUniquePathPrefixes_root (paths : List (List String))
    (h : [] ∈ paths) : selectUniquePathPrefixes paths = [[]] := by
  by_cases hlen : paths.length = 1
  · obtain ⟨q, hq⟩ := List.length_eq_one.mp hlen
    subst hq
    have : q = [] := by simpa using h
    subst this
    rfl
  · have hb1 : (paths.length == 1) = false := by simpa using hlen
    have hb2 : (paths.any fun p => p.length == 0) = true := by
      rw [List.any_eq_true]
      exact ⟨[], h, by simp⟩
    simp [selectUniquePathPrefixes, hb1, hb2]

theorem selectUniquePathPrefixes_mem (paths : List (List String))
    (p : List String) :
    p ∈ selectUniquePathPrefixes paths ↔
      (p ∈ paths ∧ ∀ r ∈ paths, r <+: p → r = p) := by
  by_cases hlen : paths.length = 1
  · obtain ⟨q, hq⟩ := List.length_eq_one.mp hlen
    subst hq
    have hres : selectUniquePathPrefixes [q] = [q] := rfl
    rw [hres]
    constructor
    · intro hp
      have hpq : p = q := by simpa using hp
      subst hpq
      refine ⟨by simp, ?_⟩
      intro r hr _
      have : r = p := by simpa using hr
      exact this
    · exact fun h => h.1
  · by_cases hroot : [] ∈ paths
    · rw [selectUniquePathPrefixes_root paths hroot]
      constructor
      · intro hp
        have hp0 : p = [] := by simpa using hp
        subst hp0
        refine ⟨hroot, ?_⟩
        intro r _ hr
        exact List.eq_nil_of_prefix_nil hr
      · rintro ⟨hp, hprop⟩
        have : p = [] := (hprop [] hroot List.nil_prefix).symm
        simp [this]
    · rw [selectUniquePathPrefixes_eq_greedy paths hlen hroot,
        greedyFuel_mem _ _ (sortPaths_sorted paths) (Nat.le_refl _) p]
      have hperm := sortPaths_perm paths
      constructor
      · rintro ⟨hp, hprop⟩
        exact ⟨hperm.mem_iff.mp hp,
          fun r hr => hprop r (hperm.mem_iff.mpr hr)⟩
      · rintro ⟨hp, hprop⟩
        exact ⟨hperm.mem_iff.mpr hp,
          fun r hr => hprop r (hperm.mem_iff.mp hr)⟩

theorem selectUniquePathPrefixes_nodup (paths : List (List String)) :
    (selectUniquePathPrefixes paths).Nodup := by
  by_cases hlen : paths.length = 1
  · obtain ⟨q, hq⟩ := List.length_eq_one.mp hlen
    subst hq
    exact List.nodup_singleton q
  · by_cases hroot : [] ∈ paths
    · rw [selectUniquePathPrefixes_root paths hroot]
      exact List.nodup_singleton []
    · rw [selectUniquePathPrefixes_eq_greedy paths hlen hroot]
      exact greedyFuel_nodup _ _ (sortPaths_sorted paths) (Nat.le_refl _)

/-! ### The claims -/

def demoStoreW : Store :=
  { rootState := .vrecord [("a", .vnum 1)], observers := .node none [],
    batchDepth := 0, appliedBatchActions := [], rootBeforeBatch := .vnull }

def demoStoreC1 : Store :=
  { rootState := .vrecord [("a", .vnum 1), ("b", .vnum 0)],
    observers := .node none [("a", .node (some ⟨true⟩) [])],
    batchDepth := 0, appliedBatchActions := [], rootBeforeBatch := .vnull }

/-- C1 (corrected).  A no-op mutation — one whose application returns the
root unchanged — is silent (no events, unchanged root, nothing recorded
for the batch) at top level, and inside a batch only while the root still
equals the pre-batch snapshot.  The original claim's stronger form — that
an in-batch no-op is silent even after effective mutations — is refuted by
`C1_counterexample_noop_in_dirty_batch`. -/
theorem C1_noop_silent_while_clean :
    ∀ (s : Store) (a : Action), apply s.rootState a = .ok s.rootState →
    (s.batchDepth = 0 ∨ StateValue.jsEqB s.rootState s.rootBeforeBatch = true) →
    (storeApply s a).1.rootState = s.rootState ∧ (storeApply s a).2.1 = [] ∧
    (storeApply s a).1.appliedBatchActions = s.appliedBatchActions := by
  intro s a happ hcase
  have hself : StateValue.jsEqB s.rootState s.rootState = true :=
    (StateValue.jsEqB_iff _ _).mpr rfl
  by_cases hd : s.batchDepth = 0
  · simp [storeApply, hd, happ, hself]
  · rcases hcase with h | h
    · exact absurd h hd
    · simp [storeApply, hd, happ, h]

/-- Witness for C1: a top-level no-op `set` on a concrete store is silent. -/
theorem C1_noop_silent_while_clean_witness :
    apply demoStoreW.rootState (.set ["a"] (some (.vnum 1))) =
      .ok demoStoreW.rootState ∧
    ((storeApply demoStoreW (.set ["a"] (some (.vnum 1)))).1.rootState =
        demoStoreW.rootState ∧
      (storeApply demoStoreW (.set ["a"] (some (.vnum 1)))).2.1 = [] ∧
      (storeApply demoStoreW (.set ["a"] (some (.vnum 1)))).1.appliedBatchActions =
        demoStoreW.appliedBatchActions) :=
  ⟨by decide, C1_noop_silent_while_clean demoStoreW _ (by decide) (Or.inl rfl)⟩

set_option maxHeartbeats 1000000 in
/-- Counterexample to C1 as stated: in a batch that already performed an
effective mutation (`set ['b'] 1`), a subsequent no-op (`set ['a'] 1`, whose
application returns the root unchanged) causes the channel subscribed at
`['a']` to be notified — the same batch without the no-op notifies nobody. -/
theorem C1_counterexample_noop_in_dirty_batch :
    apply (.vrecord [("a", .vnum 1), ("b", .vnum 1)]) (.set ["a"] (some (.vnum 1))) =
      .ok (.vrecord [("a", .vnum 1), ("b", .vnum 1)]) ∧
    (runInBatch demoStoreC1 [.opSet ["b"] (some (.vnum 1))]).2.1.map
      NotifyEvent.path = [] ∧
    (runInBatch demoStoreC1
        [.opSet ["b"] (some (.vnum 1)), .opSet ["a"] (some (.vnum 1))]).2.1.map
      NotifyEvent.path = [["a"]] :=
  ⟨by decide, by decide, by decide⟩

/-- C2 (corrected).  A key rejected by `isValidArrayIndex` (negative,
non-numeric — but not a fractional decimal) used on an array, mid-path or
at the leaf, makes `set` fail with `InvalidArrayIndex`.  `'1.5'` passes the
validation, contrary to the claim: see
`C2_counterexample_fractional_index_accepted`. -/
theorem C2_array_index_validation :
    (isValidArrayIndex "-1" = false ∧ isValidArrayIndex "abc" = false ∧
      isValidArrayIndex "1.5" = true) ∧
    (∀ (st : StateValue) (k : String) (rest pfx : List String),
      st.isArray = true → isValidArrayIndex k = false →
      setWalk (some st) (k :: rest) pfx = .error (.invalidArrayIndex (pfx ++ [k]) k)) ∧
    (∀ (st sub : StateValue) (p : List String) (leaf : String) (v : StateValue),
      setWalk (some st) p [] = .ok (some sub) → sub.isArray = true →
      isValidArrayIndex leaf = false →
      setInPath st (p ++ [leaf]) (some v) =
        .error (.invalidArrayIndex (p ++ [leaf]) leaf)) := by
  refine ⟨⟨by decide, by decide, by decide⟩, ?_, ?_⟩
  · intro st k rest pfx harr hbad
    simp [setWalk, harr, hbad]
  · intro st sub p leaf v hwalk harr hbad
    have hne : p ++ [leaf] ≠ [] := by simp
    simp only [setInPath]
    rw [dif_neg hne]
    rw [List.dropLast_concat, hwalk]
    have hlast : (p ++ [leaf]).getLast hne = leaf := List.getLast_concat _
    rw [hlast]
    simp [optIsArray, harr, hbad]

/-- Witness for C2: `'-1'` on a concrete array fails both mid-walk and at
the leaf with `InvalidArrayIndex`. -/
theorem C2_array_index_validation_witness :
    ((.varr [some (.vnum 1)] [] : StateValue).isArray = true ∧
      isValidArrayIndex "-1" = false ∧
      setWalk (some (.varr [some (.vnum 1)] [])) ["-1"] ["xs"] =
        .error (.invalidArrayIndex ["xs", "-1"] "-1")) ∧
    (setWalk (some (.vrecord [("xs", .varr [some (.vnum 1)] [])])) ["xs"] [] =
        .ok (some (.varr [some (.vnum 1)] [])) ∧
      setInPath (.vrecord [("xs", .varr [some (.vnum 1)] [])]) (["xs"] ++ ["-1"])
          (some (.vnum 7)) =
        .error (.invalidArrayIndex (["xs"] ++ ["-1"]) "-1")) :=
  ⟨⟨by decide, by decide,
    C2_array_index_validation.2.1 _ "-1" [] ["xs"] (by decide) (by decide)⟩,
   ⟨by decide,
    C2_array_index_validation.2.2 (.vrecord [("xs", .varr [some (.vnum 1)] [])])
      (.varr [some (.vnum 1)] []) ["xs"] "-1" (.vnum 7) (by decide) (by decide)
      (by decide)⟩⟩

/-- Counterexample to C2 as stated: `Number('1.5')` is a non-negative
finite number, so `isValidArrayIndex` accepts it and
`set(['xs','1.5'], 7)` succeeds, storing a string property on the array
instead of raising `InvalidArrayIndex`. -/
theorem C2_counterexample_fractional_index_accepted :
    isValidArrayIndex "1.5" = true ∧
    setInPath (.vrecord [("xs", .varr [some (.vnum 1)] [])]) ["xs", "1.5"]
        (some (.vnum 7)) =
      .ok (.vrecord [("xs", .varr [some (.vnum 1)] [("1.5", .vnum 7)])]) :=
  ⟨by decide, by decide⟩


def c3store : Store :=
  { rootState := .vrecord [("a", .vrecord [("b", .vrecord [("c", .vnum 1)])])],
    observers := .node (some ⟨true⟩) [], batchDepth := 0,
    appliedBatchActions := [], rootBeforeBatch := .vnull }

set_option maxHeartbeats 1000000 in
/-- C3 (confirmed).  A detail subscriber at `q` receives exactly the
touched paths at or below `q` with the `q` prefix stripped, collapsed by
`selectUniquePathPrefixes` (one uniform formula, the `q = []` branch
included); an action touching only strict ancestors of `q` yields the
empty path list; and the spec's batch example delivers exactly one event
with relative paths `[['a','b']]`. -/
theorem C3_relative_change_paths :
    (∀ (q : List String) (a : Action), changePaths q true a = specRelativePaths q a) ∧
    (∀ (q : List String) (a : Action) (det : Bool),
      (∀ fp ∈ extractPathsAsIs a, fp <+: q ∧ fp ≠ q) → changePaths q det a = []) ∧
    ((runInBatch c3store
        [.opSet ["a", "b"] (some (.vrecord [])),
         .opSet ["a", "b", "c"] (some (.vnum 10))]).2.1.map
      (fun ev => (subscriberView [] [] true ev).map StateChange.paths)) =
      [some [["a", "b"]]] :=
  ⟨changePaths_uniform, changePaths_ancestors_empty, by decide⟩

/-- Witness for C3: the uniform formula at a concrete subscriber, and the
ancestors-only empty result for a concrete ancestor write. -/
theorem C3_relative_change_paths_witness :
    (changePaths ["a"] true (.set ["a", "b"] (some (.vnum 1))) =
      specRelativePaths ["a"] (.set ["a", "b"] (some (.vnum 1)))) ∧
    ((∀ fp ∈ extractPathsAsIs (.set ["a"] (some (.vnum 2))),
        fp <+: ["a", "b"] ∧ fp ≠ ["a", "b"]) ∧
      changePaths ["a", "b"] true (.set ["a"] (some (.vnum 2))) = []) :=
  ⟨C3_relative_change_paths.1 ["a"] (.set ["a", "b"] (some (.vnum 1))),
   ⟨by decide,
    C3_relative_change_paths.2.1 ["a", "b"] (.set ["a"] (some (.vnum 2))) true
      (by decide)⟩⟩

def c4store : Store :=
  { rootState := .vrecord [("a", .vrecord [("b", .vnum 1)])],
    observers := .node (some ⟨false⟩)
      [("a", .node (some ⟨false⟩) [("b", .node (some ⟨false⟩) [])])],
    batchDepth := 0, appliedBatchActions := [], rootBeforeBatch := .vnull }

set_option maxHeartbeats 1000000 in
/-- C4 (confirmed).  Events of one `_notify` walk are emitted top-down:
whenever events exist at `p` and at a strict descendant `q`, `p`'s event
precedes `q`'s; subscribing at `[]`, `['a']`, `['a','b']` and running
`set(['a','b'], 2)` notifies exactly in that order. -/
theorem C4_topdown_notification :
    (∀ (obs : PTrie Channel) (before after : StateValue) (action : Action)
      (p q : List String), p ≠ q → p <+: q →
      p ∈ (notifyEvents obs before after action).map NotifyEvent.path →
      q ∈ (notifyEvents obs before after action).map NotifyEvent.path →
      List.Sublist [p, q]
        ((notifyEvents obs before after action).map NotifyEvent.path)) ∧
    (storeSet c4store ["a", "b"] (some (.vnum 2))).2.1.map NotifyEvent.path =
      [[], ["a"], ["a", "b"]] :=
  ⟨fun obs b a act p q h1 h2 h3 h4 => notifyEvents_topdown obs b a act p q h1 h2 h3 h4,
   by decide⟩

set_option maxHeartbeats 1000000 in
/-- Witness for C4: the root event precedes the `['a']` event in the
concrete scenario. -/
theorem C4_topdown_notification_witness :
    (([] : List String) ≠ ["a"] ∧ ([] : List String) <+: ["a"] ∧
      ([] : List String) ∈ (notifyEvents c4store.observers c4store.rootState
        (.vrecord [("a", .vrecord [("b", .vnum 2)])])
        (.set ["a", "b"] (some (.vnum 2)))).map NotifyEvent.path ∧
      ["a"] ∈ (notifyEvents c4store.observers c4store.rootState
        (.vrecord [("a", .vrecord [("b", .vnum 2)])])
        (.set ["a", "b"] (some (.vnum 2)))).map NotifyEvent.path) ∧
    List.Sublist [[], ["a"]]
      ((notifyEvents c4store.observers c4store.rootState
        (.vrecord [("a", .vrecord [("b", .vnum 2)])])
        (.set ["a", "b"] (some (.vnum 2)))).map NotifyEvent.path) :=
  ⟨⟨by decide, by decide, by decide, by decide⟩,
   C4_topdown_notification.1 c4store.observers c4store.rootState
     (.vrecord [("a", .vrecord [("b", .vnum 2)])]) (.set ["a", "b"] (some (.vnum 2)))
     [] ["a"] (by decide) (by decide) (by decide) (by decide)⟩

/-- C5 (corrected).  Every mutation error leaves the store's root
unchanged and emits nothing; walk-detected errors (`InvalidArrayIndex`,
`NonRecordParent`), the `EmptyPath` delete guard and the `InvalidRootType`
root guard are raised by validation before any cloning.  The original
claim's "before any cloning" is false for `ArrayElementDeleteUnsupported`,
which `deepCloneOnPath` raises mid-clone: see
`C5_counterexample_delete_error_after_cloning`. -/
theorem C5_errors_and_no_partial_state :
    (∀ (s : Store) (a : Action), ((storeApply s a).2.2).isSome = true →
      (storeApply s a).1.rootState = s.rootState ∧ (storeApply s a).2.1 = []) ∧
    (∀ (st : StateValue) (p : List String) (v : StateValue) (e : StoreErr),
      p ≠ [] → setWalk (some st) p.dropLast [] = .error e →
      setInPath st p (some v) = .error e) ∧
    (∀ (st : StateValue) (p : List String) (e : StoreErr),
      p ≠ [] → deleteWalk st p.dropLast [] = .error e →
      deleteInPath st p = .error e) ∧
    (∀ (st : StateValue), deleteInPath st [] = .error .emptyPath) ∧
    (∀ (st v : StateValue), ¬ (v.isObjectLike = true ∧ v.isArray = false) →
      setInPath st [] (some v) = .error (.invalidRootType v.typeLabel)) := by
  refine ⟨storeApply_error_keeps_state, ?_, ?_, ?_, ?_⟩
  · intro st p v e hne hwalk
    simp only [setInPath]
    rw [dif_neg hne, hwalk]
  · intro st p e hne hwalk
    simp only [deleteInPath]
    rw [dif_neg hne, hwalk]
  · intro st
    rfl
  · intro st v hbad
    simp only [setInPath]
    rw [dif_pos trivial, if_neg]
    intro hc
    exact hbad ⟨hc.1, by simpa using hc.2⟩

/-- Witness for C5: a failing root `set` on a concrete store keeps the
root and emits nothing, and the validation errors fire on concrete
inputs. -/
theorem C5_errors_and_no_partial_state_witness :
    (((storeApply demoStoreW (.set [] (some (.vnum 3)))).2.2).isSome = true ∧
      (storeApply demoStoreW (.set [] (some (.vnum 3)))).1.rootState =
        demoStoreW.rootState ∧
      (storeApply demoStoreW (.set [] (some (.vnum 3)))).2.1 = []) ∧
    setInPath (.vrecord [("a", .vnum 1)]) ["a", "b"] (some (.vnum 2)) =
      .error (.nonRecordParent ["a"] "number") ∧
    deleteInPath (.vrecord []) [] = .error .emptyPath ∧
    setInPath (.vrecord []) [] (some (.vnum 3)) =
      .error (.invalidRootType "number") := by
  refine ⟨⟨by decide, C5_errors_and_no_partial_state.1 demoStoreW _ (by decide)⟩,
    ?_, C5_errors_and_no_partial_state.2.2.2.1 (.vrecord []), ?_⟩
  · exact C5_errors_and_no_partial_state.2.1 (.vrecord [("a", .vnum 1)]) ["a", "b"]
      (.vnum 2) (.nonRecordParent ["a"] "number") (by decide) (by decide)
  · exact C5_errors_and_no_partial_state.2.2.2.2 (.vrecord []) (.vnum 3) (by decide)

set_option maxHeartbeats 1000000 in
/-- Counterexample to C5 as stated: deleting `['xs','0']` passes the
validation walk (`deleteWalk` succeeds), and the
`ArrayElementDeleteUnsupported` error is raised only inside
`deepCloneOnPath`, i.e. after cloning has begun. -/
theorem C5_counterexample_delete_error_after_cloning :
    deleteWalk (.vrecord [("xs", .varr [some (.vnum 1)] [])]) ["xs"] [] =
      .ok (some (.varr [some (.vnum 1)] [])) ∧
    deepCloneOnPath (.vrecord [("xs", .varr [some (.vnum 1)] [])]) ["xs", "0"]
        none =
      .error (.arrayElementDeleteUnsupported ["xs", "0"]) ∧
    deleteInPath (.vrecord [("xs", .varr [some (.vnum 1)] [])]) ["xs", "0"] =
      .error (.arrayElementDeleteUnsupported ["xs", "0"]) :=
  ⟨by decide, by decide, by decide⟩


/-- C6 (confirmed).  When a batch body raises: the operations after the
error never run, the error propagates, the store keeps the state reached
before the error, and — once the outermost scope exits — the single
deferred notification still fires for the accumulated actions.  Nested
`runInBatch` calls merge into the outer batch (they equal plain sequencing
at positive depth, so only depth-zero completion notifies). -/
theorem C6_batch_error_and_nesting :
    (∀ (s : Store) (ops1 : List StoreOp) (op : StoreOp) (rest : List StoreOp)
      (e : StoreErr), s.batchDepth = 0 →
      (execOps { s with batchDepth := 1 } ops1).2.2 = none →
      (execOp (execOps { s with batchDepth := 1 } ops1).1 op).2.2 = some e →
      (runInBatch s (ops1 ++ op :: rest) = runInBatch s (ops1 ++ [op]) ∧
       (runInBatch s (ops1 ++ op :: rest)).2.2 = some e ∧
       (runInBatch s (ops1 ++ op :: rest)).1.rootState =
         (execOp (execOps { s with batchDepth := 1 } ops1).1 op).1.rootState ∧
       (0 < (execOp (execOps { s with batchDepth := 1 } ops1).1
            op).1.appliedBatchActions.length →
         (runInBatch s (ops1 ++ op :: rest)).2.1 =
           (execOps { s with batchDepth := 1 } ops1).2.1 ++
             ((execOp (execOps { s with batchDepth := 1 } ops1).1 op).2.1 ++
               notifyEvents
                 (execOp (execOps { s with batchDepth := 1 } ops1).1 op).1.observers
                 (execOp (execOps { s with batchDepth := 1 } ops1).1
                   op).1.rootBeforeBatch
                 (execOp (execOps { s with batchDepth := 1 } ops1).1 op).1.rootState
                 (.batch (execOp (execOps { s with batchDepth := 1 } ops1).1
                   op).1.appliedBatchActions))))) ∧
    (∀ (t : Store) (ops rest2 : List StoreOp), 1 ≤ t.batchDepth →
      execOps t (.opBatch ops :: rest2) = execOps t (ops ++ rest2)) ∧
    (∀ (t : Store) (ops : List StoreOp), 1 ≤ t.batchDepth →
      runInBatch t ops = execOps t ops) := by
  refine ⟨?_, fun t ops rest2 h => execOps_flatten t h ops rest2,
    fun t ops h => execOp_opBatch_flat t h ops⟩
  intro s ops1 op rest e hd h1 h2
  have hrw : ({ s with batchDepth := s.batchDepth + 1 } : Store) =
      { s with batchDepth := 1 } := by rw [hd]
  have hrun : ∀ l, runInBatch s l =
      batchEpilogue (execOps { s with batchDepth := 1 } l) := by
    intro l
    show batchEpilogue (execOps { s with batchDepth := s.batchDepth + 1 } l) = _
    rw [hrw]
  rcases hr1 : execOps { s with batchDepth := 1 } ops1 with ⟨sA, evA, errA⟩
  rw [hr1] at h1 h2
  simp only [] at h1
  subst h1
  rcases hop : execOp sA op with ⟨sB, evB, errB⟩
  rw [hop] at h2
  simp only [] at h2
  subst h2
  have hsplit : ∀ tail, execOps { s with batchDepth := 1 } (ops1 ++ op :: tail) =
      (sB, evA ++ evB, some e) := by
    intro tail
    rw [execOps_append, hr1]
    show ((execOps sA (op :: tail)).1, evA ++ (execOps sA (op :: tail)).2.1,
      (execOps sA (op :: tail)).2.2) = _
    have hstep : execOps sA (op :: tail) = (sB, evB, some e) := by
      simp only [execOps]
      rw [hop]
    rw [hstep]
  have hdA : sA.batchDepth = 1 := by
    have hx := execOps_depth { s with batchDepth := 1 } ops1
    rw [hr1] at hx
    exact hx
  have hdB : sB.batchDepth = 1 := by
    have hx := execOp_depth sA op
    rw [hop] at hx
    rw [hx, hdA]
  have hepi : batchEpilogue (sB, evA ++ evB, some e) =
      if 0 < sB.appliedBatchActions.length then
        ({ { sB with batchDepth := sB.batchDepth - 1 } with
            appliedBatchActions := [] },
          (evA ++ evB) ++ notifyEvents sB.observers sB.rootBeforeBatch sB.rootState
            (.batch sB.appliedBatchActions), some e)
      else ({ sB with batchDepth := sB.batchDepth - 1 }, evA ++ evB, some e) := by
    simp only [batchEpilogue]
    by_cases hlen : 0 < sB.appliedBatchActions.length
    · rw [if_pos ⟨by simp [hdB], by simpa using hlen⟩, if_pos hlen]
    · rw [if_neg, if_neg hlen]
      intro hc
      exact hlen (by simpa using hc.2)
  refine ⟨by rw [hrun, hrun, hsplit rest, hsplit []], ?_, ?_, ?_⟩
  · rw [hrun, hsplit rest, hepi]
    split <;> rfl
  · rw [hrun, hsplit rest, hepi]
    split <;> rfl
  · intro hlen
    rw [hrun, hsplit rest, hepi, if_pos hlen]
    simp [List.append_assoc]


def c6store : Store :=
  { rootState := .vrecord [("a", .vnum 1)], observers := .node (some ⟨false⟩) [],
    batchDepth := 0, appliedBatchActions := [], rootBeforeBatch := .vnull }

def c6ops1 : List StoreOp := [.opSet ["b"] (some (.vnum 2))]

def c6op : StoreOp := .opSet [] (some (.vnum 3))

set_option maxHeartbeats 1000000 in
/-- Witness for C6: a concrete failing batch is truncated at the failing
operation. -/
theorem C6_batch_error_and_nesting_witness :
    c6store.batchDepth = 0 ∧
    (execOps { c6store with batchDepth := 1 } c6ops1).2.2 = none ∧
    (execOp (execOps { c6store with batchDepth := 1 } c6ops1).1 c6op).2.2 =
      some (.invalidRootType "number") ∧
    runInBatch c6store (c6ops1 ++ c6op :: [.opDelete ["b"]]) =
      runInBatch c6store (c6ops1 ++ [c6op]) :=
  ⟨rfl, by decide, by decide,
   (C6_batch_error_and_nesting.1 c6store c6ops1 c6op [.opDelete ["b"]]
     (.invalidRootType "number") rfl (by decide) (by decide)).1⟩

/-- C7 (confirmed).  After a successful `set`/`delete` at `p` on a record
root whose arrays carry no string properties, every path `q` that neither
lies on the root-to-`p` path nor below `p` reads exactly the same value as
before — only the nodes along `p` are rebuilt, siblings are shared.  (The
embedding is pure, so the original tree is never mutated.) -/
theorem C7_structural_sharing :
    (∀ (s : StateValue) (p : List String) (v s2 : StateValue),
      s.isRecord = true → propFree s = true → setInPath s p (some v) = .ok s2 →
      ∀ q, isPathPrefixOf p q = false → isPathPrefixOf q p = false →
        getInPath s2 q = getInPath s q) ∧
    (∀ (s : StateValue) (p : List String) (s2 : StateValue),
      s.isRecord = true → propFree s = true → deleteInPath s p = .ok s2 →
      ∀ q, isPathPrefixOf p q = false → isPathPrefixOf q p = false →
        getInPath s2 q = getInPath s q) :=
  ⟨fun _ _ _ _ h1 h2 h3 => setInPath_preserve h1 h2 h3,
   fun _ _ _ h1 h2 h3 => deleteInPath_preserve h1 h2 h3⟩

def c7state : StateValue :=
  .vrecord [("a", .vrecord [("x", .vnum 1)]), ("b", .vnum 2)]

/-- Witness for C7: a sibling subtree is untouched by concrete `set` and
`delete` calls. -/
theorem C7_structural_sharing_witness :
    (c7state.isRecord = true ∧ propFree c7state = true ∧
      setInPath c7state ["a", "y"] (some (.vnum 3)) =
        .ok (.vrecord [("a", .vrecord [("x", .vnum 1), ("y", .vnum 3)]),
          ("b", .vnum 2)]) ∧
      getInPath (.vrecord [("a", .vrecord [("x", .vnum 1), ("y", .vnum 3)]),
          ("b", .vnum 2)]) ["b"] = getInPath c7state ["b"]) ∧
    (deleteInPath c7state ["a", "x"] =
        .ok (.vrecord [("a", .vrecord []), ("b", .vnum 2)]) ∧
      getInPath (.vrecord [("a", .vrecord []), ("b", .vnum 2)]) ["b"] =
        getInPath c7state ["b"]) :=
  ⟨⟨by decide, by decide, by decide,
    C7_structural_sharing.1 c7state ["a", "y"] (.vnum 3) _ (by decide) (by decide)
      (by decide) ["b"] (by decide) (by decide)⟩,
   ⟨by decide,
    C7_structural_sharing.2 c7state ["a", "x"] _ (by decide) (by decide)
      (by decide) ["b"] (by decide) (by decide)⟩⟩

/-- C8 (confirmed).  `get(p)` after a successful `set(p, v)` returns `v`,
and after a successful `delete(p)` on a record root returns absent. -/
theorem C8_get_after_set_delete :
    (∀ (s : StateValue) (p : List String) (v s2 : StateValue),
      setInPath s p (some v) = .ok s2 → getInPath s2 p = some v) ∧
    (∀ (s : StateValue) (p : List String) (s2 : StateValue),
      s.isRecord = true → deleteInPath s p = .ok s2 → getInPath s2 p = none) :=
  ⟨fun _ _ _ _ h => setInPath_roundtrip h,
   fun _ _ _ hrec h => deleteInPath_roundtrip hrec h⟩

/-- Witness for C8: the roundtrips on a concrete tree. -/
theorem C8_get_after_set_delete_witness :
    (setInPath c7state ["a", "y"] (some (.vnum 3)) =
        .ok (.vrecord [("a", .vrecord [("x", .vnum 1), ("y", .vnum 3)]),
          ("b", .vnum 2)]) ∧
      getInPath (.vrecord [("a", .vrecord [("x", .vnum 1), ("y", .vnum 3)]),
          ("b", .vnum 2)]) ["a", "y"] = some (.vnum 3)) ∧
    (c7state.isRecord = true ∧
      deleteInPath c7state ["a", "x"] =
        .ok (.vrecord [("a", .vrecord []), ("b", .vnum 2)]) ∧
      getInPath (.vrecord [("a", .vrecord []), ("b", .vnum 2)]) ["a", "x"] = none) :=
  ⟨⟨by decide, C8_get_after_set_delete.1 c7state ["a", "y"] (.vnum 3) _ (by decide)⟩,
   ⟨by decide,  by decide,
    C8_get_after_set_delete.2 c7state ["a", "x"] _ (by decide) (by decide)⟩⟩

/-- C9 (confirmed).  `selectUniquePathPrefixes` keeps exactly the input
paths that have no strict prefix in the input, each once (the result has
no duplicates), and collapses any input containing the root path to
`[[]]`. -/
theorem C9_dedupe_prefixes :
    ∀ (paths : List (List String)),
    ([] ∈ paths → selectUniquePathPrefixes paths = [[]]) ∧
    (∀ p, p ∈ selectUniquePathPrefixes paths ↔
      (p ∈ paths ∧ ∀ r ∈ paths, r <+: p → r = p)) ∧
    (selectUniquePathPrefixes paths).Nodup :=
  fun paths => ⟨selectUniquePathPrefixes_root paths,
    selectUniquePathPrefixes_mem paths, selectUniquePathPrefixes_nodup paths⟩

/-- Witness for C9: the characterization evaluated on concrete path
lists. -/
theorem C9_dedupe_prefixes_witness :
    selectUniquePathPrefixes [[], ["a"]] = [[]] ∧
    ["a"] ∈ selectUniquePathPrefixes [["a"], ["a", "b"], ["b"], ["a"]] ∧
    ["a", "b"] ∉ selectUniquePathPrefixes [["a"], ["a", "b"], ["b"], ["a"]] ∧
    (selectUniquePathPrefixes [["a"], ["a", "b"], ["b"], ["a"]]).Nodup :=
  ⟨(C9_dedupe_prefixes [[], ["a"]]).1 (by decide),
   ((C9_dedupe_prefixes [["a"], ["a", "b"], ["b"], ["a"]]).2.1 ["a"]).mpr
     (by decide),
   fun hc =>
     absurd
       (((C9_dedupe_prefixes [["a"], ["a", "b"], ["b"], ["a"]]).2.1
           ["a", "b"]).mp hc).2 (by decide),
   (C9_dedupe_prefixes [["a"], ["a", "b"], ["b"], ["a"]]).2.2⟩

/-- C10 (confirmed).  The read traversal is total and validation-free:
the empty path returns the node, each step reads one key, scalars and
absent children yield absent rather than an error, and array reads with
non-canonical or out-of-range keys yield the string property or absent —
the same `['xs','-1']` read that makes `set` raise returns absent. -/
theorem C10_get_total_no_validation :
    (∀ (s : StateValue), getInPath s [] = some s) ∧
    (∀ (s : StateValue) (k : String) (rest : List String),
      getInPath s (k :: rest) =
        match jsGet s k with
        | none => none
        | some v => getInPath v rest) ∧
    (∀ (v : StateValue) (k : String), v.isObjectLike = false → jsGet v k = none) ∧
    (∀ (elems : List (Option StateValue)) (props : List (String × StateValue))
      (k : String), canonicalIndex k = none →
      jsGet (.varr elems props) k = lookupEntries props k) ∧
    (∀ (elems : List (Option StateValue)) (props : List (String × StateValue))
      (k : String) (i : Nat), canonicalIndex k = some i → elems.length ≤ i →
      jsGet (.varr elems props) k = none) ∧
    (setInPath (.vrecord [("xs", .varr [some (.vnum 1)] [])]) ["xs", "-1"]
        (some (.vnum 7)) = .error (.invalidArrayIndex ["xs", "-1"] "-1") ∧
      getInPath (.vrecord [("xs", .varr [some (.vnum 1)] [])]) ["xs", "-1"] =
        none) :=
  ⟨getInPath_nil, getInPath_cons,
   fun _ k h => jsGet_not_objectLike h k,
   fun elems props _ h => jsGet_arr_nonIndex elems props h,
   fun elems props _ _ h hl => jsGet_arr_oob elems props h hl,
   by decide, by decide⟩

/-- Witness for C10: the scalar, non-canonical-key and out-of-range
conjuncts at concrete values. -/
theorem C10_get_total_no_validation_witness :
    ((.vnum 5 : StateValue).isObjectLike = false ∧
      jsGet (.vnum 5) "a" = none) ∧
    (canonicalIndex "-1" = none ∧
      jsGet (.varr [some (.vnum 1)] [("p", .vnum 9)]) "-1" =
        lookupEntries [("p", .vnum 9)] "-1") ∧
    (canonicalIndex "5" = some 5 ∧
      ([some (.vnum 1)] : List (Option StateValue)).length ≤ 5 ∧
      jsGet (.varr [some (.vnum 1)] []) "5" = none) :=
  ⟨⟨by decide, C10_get_total_no_validation.2.2.1 (.vnum 5) "a" (by decide)⟩,
   ⟨by decide,
    C10_get_total_no_validation.2.2.2.1 [some (.vnum 1)] [("p", .vnum 9)] "-1"
      (by decide)⟩,
   ⟨by decide, by decide,
    C10_get_total_no_validation.2.2.2.2.1 [some (.vnum 1)] [] "5" 5 (by decide)
      (by decide)⟩⟩


end Otrie
